import Mathlib

/-!
# Verification of the PGM lowering pass

A shallow embedding of `delphi/program_analysis/autoTranslate/scripts/genPGM.py`:
the traversal that lowers a restricted Python AST into a Program Graph Model
(PGM).  Python dicts are modelled as insertion-ordered association lists,
in-place mutation as explicit state threading (with the aliasing structure of
the Python object graph reproduced: which dicts are copied and which are
shared), and `sys.exit` / uncaught exceptions as `Except.error`.
-/

set_option linter.unusedVariables false

/-- Insertion-ordered association map mirroring a Python `dict` with string
keys: updating an existing key keeps its original position, a new key is
appended at the end.  The key list is duplicate-free by construction. -/
structure PyDict (α : Type) where
  entries : List (String × α)
  nodupKeys : (entries.map Prod.fst).Nodup

namespace PyDict

variable {α : Type}

/-- Lookup in the underlying entry list (Python `d[k]` / `d.get(k)`). -/
def findEntries : List (String × α) → String → Option α
  | [], _ => none
  | (k', v) :: rest, k => if k' = k then some v else findEntries rest k

/-- Update-or-append on the underlying entry list (Python `d[k] = v`). -/
def insertEntries : List (String × α) → String → α → List (String × α)
  | [], k, v => [(k, v)]
  | (k', v') :: rest, k, v =>
      if k' = k then (k, v) :: rest else (k', v') :: insertEntries rest k v

theorem findEntries_isSome_iff (l : List (String × α)) (k : String) :
    (findEntries l k).isSome = true ↔ k ∈ l.map Prod.fst := by
  induction l with
  | nil => simp [findEntries]
  | cons p rest ih =>
      obtain ⟨k', v⟩ := p
      simp only [findEntries, List.map_cons, List.mem_cons]
      by_cases h : k' = k
      · subst h; simp
      · simp [h, Ne.symm h, ih]

theorem map_fst_insertEntries (l : List (String × α)) (k : String) (v : α) :
    (insertEntries l k v).map Prod.fst =
      if k ∈ l.map Prod.fst then l.map Prod.fst else l.map Prod.fst ++ [k] := by
  induction l with
  | nil => simp [insertEntries]
  | cons p rest ih =>
      obtain ⟨k', v'⟩ := p
      by_cases h : k' = k
      · subst h; simp [insertEntries]
      · simp only [insertEntries, if_neg h, List.map_cons, ih]
        by_cases hm : k ∈ rest.map Prod.fst <;>
          simp [hm, h, Ne.symm h, List.mem_cons]

theorem nodup_insertEntries (l : List (String × α)) (k : String) (v : α)
    (h : (l.map Prod.fst).Nodup) : ((insertEntries l k v).map Prod.fst).Nodup := by
  rw [map_fst_insertEntries]
  by_cases hm : k ∈ l.map Prod.fst
  · simpa [hm]
  · simpa [hm, List.nodup_append] using h

/-- Python `d.get(k)` (`None` when absent). -/
def find? (d : PyDict α) (k : String) : Option α := findEntries d.entries k

/-- Python `d[k] = v`. -/
def insert (d : PyDict α) (k : String) (v : α) : PyDict α :=
  ⟨insertEntries d.entries k v, nodup_insertEntries _ _ _ d.nodupKeys⟩

/-- Python `list(d.keys())` (insertion order). -/
def keys (d : PyDict α) : List String := d.entries.map Prod.fst

/-- Python `k in d`. -/
def contains (d : PyDict α) (k : String) : Bool := (d.find? k).isSome

/-- Python `{}`. -/
def empty : PyDict α := ⟨[], List.nodup_nil⟩

instance : EmptyCollection (PyDict α) := ⟨empty⟩

instance : Inhabited (PyDict α) := ⟨empty⟩

theorem find?_insert_self (d : PyDict α) (k : String) (v : α) :
    (d.insert k v).find? k = some v := by
  show findEntries (insertEntries d.entries k v) k = some v
  induction d.entries with
  | nil => simp [insertEntries, findEntries]
  | cons p rest ih =>
      obtain ⟨k', v'⟩ := p
      by_cases h : k' = k <;> simp [insertEntries, findEntries, h, ih]

theorem find?_insert_ne (d : PyDict α) (k k' : String) (v : α) (h : k' ≠ k) :
    (d.insert k v).find? k' = d.find? k' := by
  show findEntries (insertEntries d.entries k v) k' = findEntries d.entries k'
  induction d.entries with
  | nil => simp [insertEntries, findEntries, Ne.symm h]
  | cons p rest ih =>
      obtain ⟨k₀, v₀⟩ := p
      by_cases h0 : k₀ = k
      · subst h0
        simp [insertEntries, findEntries, Ne.symm h]
      · simp only [insertEntries, if_neg h0, findEntries]
        by_cases h1 : k₀ = k' <;> simp [h1, ih]

theorem contains_iff_mem_keys (d : PyDict α) (k : String) :
    d.contains k = true ↔ k ∈ d.keys := by
  simpa [contains, find?, keys] using findEntries_isSome_iff d.entries k

theorem keys_insert (d : PyDict α) (k : String) (v : α) :
    (d.insert k v).keys = if k ∈ d.keys then d.keys else d.keys ++ [k] :=
  map_fst_insertEntries d.entries k v

theorem contains_insert_self (d : PyDict α) (k : String) (v : α) :
    (d.insert k v).contains k = true := by
  simp [contains, find?_insert_self]

theorem contains_insert_of_contains (d : PyDict α) (k k' : String) (v : α)
    (h : d.contains k' = true) : (d.insert k v).contains k' = true := by
  by_cases hk : k' = k
  · subst hk; exact contains_insert_self d k' v
  · simpa [contains, find?_insert_ne d k k' v hk] using h

theorem nodup_keys (d : PyDict α) : d.keys.Nodup := d.nodupKeys

end PyDict

/-- `lastDefs` / `nextDefs`: variable name → version index. -/
abbrev VMap := PyDict Int

/-- `varTypes`: variable name → domain tag. -/
abbrev TMap := PyDict String

/-- `fnNames`: generated-name basename → next counter value. -/
abbrev FnNames := PyDict Nat

/-! ## The Scope/Version Tracker (genPGM.py lines 144–157) -/

/-- `getLastDef(var, lastDefs, lastDefDefault)`: returns `lastDefs[var]` when
present; otherwise stores and returns the default.  The second component is
the (possibly) mutated `lastDefs`. -/
def getLastDef (var : String) (lastDefs : VMap) (lastDefDefault : Int) :
    Int × VMap :=
  match lastDefs.find? var with
  | some index => (index, lastDefs)
  | none => (lastDefDefault, lastDefs.insert var lastDefDefault)

/-- `getNextDef(var, lastDefs, nextDefs, lastDefDefault)`: computes
`index = nextDefs.get(var, lastDefDefault + 1)`, stores
`nextDefs[var] = index + 1` and `lastDefs[var] = index`, returns `index`.
Result: (returned index, mutated lastDefs, mutated nextDefs). -/
def getNextDef (var : String) (lastDefs nextDefs : VMap) (lastDefDefault : Int) :
    Int × VMap × VMap :=
  let index := (nextDefs.find? var).getD (lastDefDefault + 1)
  (index, lastDefs.insert var index, nextDefs.insert var (index + 1))

/-- A single read (`getLastDef`) or write (`getNextDef`) of a variable within
one scope, used to state trace properties of the version tracker. -/
inductive ScopeOp
  | read (v : String)
  | write (v : String)
deriving DecidableEq

/-- The version-map part of one traversal context. -/
structure TrackState where
  lastDefs : VMap
  nextDefs : VMap

/-- Perform one tracker operation, returning the version index the source
function returns together with the mutated maps. -/
def stepOp (d : Int) (s : TrackState) : ScopeOp → Int × TrackState
  | .read v =>
      let (i, lds) := getLastDef v s.lastDefs d
      (i, ⟨lds, s.nextDefs⟩)
  | .write v =>
      let (i, lds, nds) := getNextDef v s.lastDefs s.nextDefs d
      (i, ⟨lds, nds⟩)

/-- Run a sequence of tracker operations, returning the final maps. -/
def runOps (d : Int) (s : TrackState) : List ScopeOp → TrackState
  | [] => s
  | op :: ops => runOps d (stepOp d s op).2 ops

/-- The version the next `getNextDef` on `v` would return. -/
def nextVal (d : Int) (s : TrackState) (v : String) : Int :=
  (s.nextDefs.find? v).getD (d + 1)

theorem stepOp_write_fst (d : Int) (s : TrackState) (v : String) :
    (stepOp d s (.write v)).1 = nextVal d s v := rfl

theorem stepOp_write_nextVal (d : Int) (s : TrackState) (v : String) :
    nextVal d (stepOp d s (.write v)).2 v = nextVal d s v + 1 := by
  simp [stepOp, getNextDef, nextVal, PyDict.find?_insert_self]

theorem nextVal_le_stepOp (d : Int) (s : TrackState) (v : String) (op : ScopeOp) :
    nextVal d s v ≤ nextVal d (stepOp d s op).2 v := by
  cases op with
  | read w =>
      rcases hgl : getLastDef w s.lastDefs d with ⟨i, lds⟩
      simp [stepOp, hgl, nextVal]
  | write w =>
      by_cases h : v = w
      · subst h; rw [stepOp_write_nextVal]; omega
      · simp [stepOp, getNextDef, nextVal,
          PyDict.find?_insert_ne _ _ _ _ h]

theorem nextVal_le_runOps (d : Int) (s : TrackState) (v : String)
    (ops : List ScopeOp) : nextVal d s v ≤ nextVal d (runOps d s ops) v := by
  induction ops generalizing s with
  | nil => simp [runOps]
  | cons op ops ih =>
      exact le_trans (nextVal_le_stepOp d s v op) (ih _)

theorem lastDefs_find?_stepOp (d : Int) (s : TrackState) (v : String)
    (op : ScopeOp) (hop : op ≠ .write v) (m : Int)
    (h : s.lastDefs.find? v = some m) :
    (stepOp d s op).2.lastDefs.find? v = some m := by
  cases op with
  | read w =>
      by_cases hw : v = w
      · subst hw; simp [stepOp, getLastDef, h]
      · simp only [stepOp, getLastDef]
        cases hfw : s.lastDefs.find? w <;>
          simp [hfw, PyDict.find?_insert_ne _ _ _ _ hw, h]
  | write w =>
      have hw : v ≠ w := fun hvw => hop (by rw [hvw])
      simpa [stepOp, getNextDef, PyDict.find?_insert_ne _ _ _ _ hw] using h

theorem lastDefs_find?_runOps (d : Int) (s : TrackState) (v : String)
    (ops : List ScopeOp) (hops : ∀ op ∈ ops, op ≠ .write v) (m : Int)
    (h : s.lastDefs.find? v = some m) :
    (runOps d s ops).lastDefs.find? v = some m := by
  induction ops generalizing s with
  | nil => simpa [runOps]
  | cons op ops ih =>
      exact ih _ (fun o ho => hops o (List.mem_cons_of_mem _ ho))
        (lastDefs_find?_stepOp d s v op (hops op (List.mem_cons_self _ _)) m h)

/-- C1, helper: a write returns the current `nextVal` and records it in
`lastDefs`. -/
theorem stepOp_write_lastDefs (d : Int) (s : TrackState) (v : String) :
    (stepOp d s (.write v)).2.lastDefs.find? v = some (stepOp d s (.write v)).1 := by
  simp [stepOp, getNextDef, PyDict.find?_insert_self]

/-- C1: version tracking is monotone and read-consistent.
(1) `writeVersion` (= `getNextDef`) returns `nextDefs.get(name, default + 1)`,
stores `nextDefs[name] = returned + 1` and `lastDefs[name] = returned`;
(2) a write to `v` performed after an earlier write to `v`, with any tracker
operations in between, returns a strictly larger version;
(3) a read of `v` performed after a write to `v`, with no intervening write to
`v`, returns exactly the version of that write. -/
theorem version_tracking_monotone_read_consistent :
    (∀ (v : String) (l n : VMap) (d : Int),
      getNextDef v l n d =
        ((n.find? v).getD (d + 1),
         l.insert v ((n.find? v).getD (d + 1)),
         n.insert v ((n.find? v).getD (d + 1) + 1)))
    ∧ (∀ (d : Int) (s : TrackState) (v : String) (ops : List ScopeOp),
        (stepOp d s (.write v)).1 <
          (stepOp d (runOps d (stepOp d s (.write v)).2 ops) (.write v)).1)
    ∧ (∀ (d : Int) (s : TrackState) (v : String) (ops : List ScopeOp),
        (∀ op ∈ ops, op ≠ .write v) →
        (stepOp d (runOps d (stepOp d s (.write v)).2 ops) (.read v)).1 =
          (stepOp d s (.write v)).1) := by
  refine ⟨fun v l n d => rfl, fun d s v ops => ?_, fun d s v ops hops => ?_⟩
  · rw [stepOp_write_fst, stepOp_write_fst]
    have h1 := stepOp_write_nextVal d s v
    have h2 := nextVal_le_runOps d (stepOp d s (.write v)).2 v ops
    omega
  · rcases hgn : getNextDef v s.lastDefs s.nextDefs d with ⟨i, lds, nds⟩
    have hw : stepOp d s (.write v) = (i, ⟨lds, nds⟩) := by simp [stepOp, hgn]
    have hld : (⟨lds, nds⟩ : TrackState).lastDefs.find? v = some i := by
      have hx := stepOp_write_lastDefs d s v
      rw [hw] at hx; exact hx
    have h := lastDefs_find?_runOps d ⟨lds, nds⟩ v ops hops i hld
    rw [hw]
    simp [stepOp, getLastDef, h]

/-- Witness for C1 at concrete inputs: write `x`, then read `y` and write `y`
(neither is a write to `x`), then a read of `x` returns the written version
and a later write to `x` returns a strictly larger version. -/
theorem version_tracking_witness :
    ((∀ op ∈ [ScopeOp.read "y", ScopeOp.write "y"], op ≠ ScopeOp.write "x") ∧
      (stepOp 0 (runOps 0 (stepOp 0 ⟨∅, ∅⟩ (.write "x")).2
          [ScopeOp.read "y", ScopeOp.write "y"]) (.read "x")).1 =
        (stepOp 0 (⟨∅, ∅⟩ : TrackState) (.write "x")).1)
    ∧ (stepOp 0 (⟨∅, ∅⟩ : TrackState) (.write "x")).1 <
        (stepOp 0 (runOps 0 (stepOp 0 ⟨∅, ∅⟩ (.write "x")).2
          [ScopeOp.read "y", ScopeOp.write "y"]) (.write "x")).1 :=
  ⟨⟨by decide,
    version_tracking_monotone_read_consistent.2.2 0 ⟨∅, ∅⟩ "x"
      [ScopeOp.read "y", ScopeOp.write "y"] (by decide)⟩,
   version_tracking_monotone_read_consistent.2.1 0 ⟨∅, ∅⟩ "x"
      [ScopeOp.read "y", ScopeOp.write "y"]⟩

/-! ## Decimal representation lemmas

`getFnName` builds names as `f"{basename}_{fnId}"`; proving generated names
pairwise distinct needs that the decimal suffix contains no underscore and
that `Nat.repr` is injective. -/

theorem toDigitsCore_mem (fuel : Nat) : ∀ (n : Nat) (ds : List Char) (c : Char),
    c ∈ Nat.toDigitsCore 10 fuel n ds → c ∈ ds ∨ ∃ m, m < 10 ∧ c = Nat.digitChar m := by
  induction fuel with
  | zero => intro n ds c h; exact Or.inl h
  | succ fuel ih =>
      intro n ds c h
      simp only [Nat.toDigitsCore] at h
      by_cases h10 : n / 10 = 0
      · rw [if_pos h10] at h
        rcases List.mem_cons.mp h with h | h
        · exact Or.inr ⟨n % 10, Nat.mod_lt _ (by decide), h⟩
        · exact Or.inl h
      · rw [if_neg h10] at h
        rcases ih _ _ _ h with h | h
        · rcases List.mem_cons.mp h with h | h
          · exact Or.inr ⟨n % 10, Nat.mod_lt _ (by decide), h⟩
          · exact Or.inl h
        · exact Or.inr h

theorem digitChar_not_special (m : Nat) (h : m < 10) :
    Nat.digitChar m ≠ '_' ∧ Nat.digitChar m ≠ '-' := by
  interval_cases m <;> exact ⟨by decide, by decide⟩

theorem reprNat_data_chars (n : Nat) (c : Char) (h : c ∈ (Nat.repr n).data) :
    c ≠ '_' ∧ c ≠ '-' := by
  have hm : c ∈ Nat.toDigits 10 n := by
    simpa [Nat.repr, List.asString] using h
  rcases toDigitsCore_mem _ _ _ _ hm with h' | ⟨m, hm', rfl⟩
  · simp at h'
  · exact digitChar_not_special m hm'

theorem toDigitsCore_acc (fuel : Nat) : ∀ (n : Nat) (ds : List Char),
    Nat.toDigitsCore 10 fuel n ds = Nat.toDigitsCore 10 fuel n [] ++ ds := by
  induction fuel with
  | zero => intro n ds; simp [Nat.toDigitsCore]
  | succ fuel ih =>
      intro n ds
      simp only [Nat.toDigitsCore]
      by_cases h10 : n / 10 = 0
      · simp [h10]
      · rw [if_neg h10, if_neg h10, ih (n / 10) [Nat.digitChar (n % 10)],
          ih (n / 10) (Nat.digitChar (n % 10) :: ds)]
        simp

theorem toDigitsCore_fuel : ∀ (n f f' : Nat) (ds : List Char), n < f → n < f' →
    Nat.toDigitsCore 10 f n ds = Nat.toDigitsCore 10 f' n ds := by
  intro n
  induction n using Nat.strong_induction_on with
  | _ n ih =>
    intro f f' ds hf hf'
    cases f with
    | zero => omega
    | succ f =>
      cases f' with
      | zero => omega
      | succ f' =>
        simp only [Nat.toDigitsCore]
        by_cases h10 : n / 10 = 0
        · simp [h10]
        · rw [if_neg h10, if_neg h10]
          have hn : 10 ≤ n := by
            by_contra hc
            exact h10 (Nat.div_eq_of_lt (by omega))
          have hd : n / 10 < n := Nat.div_lt_self (by omega) (by omega)
          exact ih (n / 10) hd f f' _ (by omega) (by omega)

theorem toDigits_base (n : Nat) (h : n < 10) :
    Nat.toDigits 10 n = [Nat.digitChar n] := by
  show Nat.toDigitsCore 10 (n + 1) n [] = _
  simp only [Nat.toDigitsCore]
  rw [if_pos (Nat.div_eq_of_lt h), Nat.mod_eq_of_lt h]

theorem toDigitsCore_decomp : ∀ (f n : Nat), n < f → 10 ≤ n →
    Nat.toDigitsCore 10 f n [] =
      Nat.toDigits 10 (n / 10) ++ [Nat.digitChar (n % 10)] := by
  intro f n hf h
  cases f with
  | zero => omega
  | succ f =>
      have h10 : n / 10 ≠ 0 := by
        have := Nat.div_pos h (by decide)
        omega
      have hlt : n / 10 < n := Nat.div_lt_self (by omega) (by decide)
      simp only [Nat.toDigitsCore]
      rw [if_neg h10, toDigitsCore_acc,
        toDigitsCore_fuel (n / 10) f (n / 10 + 1) [] (by omega) (by omega)]
      rfl

theorem toDigits_decomp (n : Nat) (h : 10 ≤ n) :
    Nat.toDigits 10 n = Nat.toDigits 10 (n / 10) ++ [Nat.digitChar (n % 10)] :=
  toDigitsCore_decomp (n + 1) n (by omega) h

/-- Evaluate a decimal digit string back to the number it denotes. -/
def accVal (l : List Char) : Nat :=
  l.foldl (fun a c => a * 10 + (c.toNat - 48)) 0

theorem digitChar_toNat (m : Nat) (h : m < 10) :
    (Nat.digitChar m).toNat - 48 = m := by
  interval_cases m <;> decide

theorem accVal_toDigits (n : Nat) : accVal (Nat.toDigits 10 n) = n := by
  induction n using Nat.strong_induction_on with
  | _ n ih =>
    by_cases h : n < 10
    · rw [toDigits_base n h]
      show 0 * 10 + ((Nat.digitChar n).toNat - 48) = n
      rw [digitChar_toNat n h]
      omega
    · have hd : n / 10 < n := Nat.div_lt_self (by omega) (by decide)
      have h1 : accVal (Nat.toDigits 10 (n / 10)) = n / 10 := ih _ hd
      rw [toDigits_decomp n (by omega)]
      show List.foldl _ 0 _ = n
      rw [List.foldl_append]
      have h2 : (Nat.digitChar (n % 10)).toNat - 48 = n % 10 :=
        digitChar_toNat _ (Nat.mod_lt _ (by decide))
      show accVal (Nat.toDigits 10 (n / 10)) * 10 + ((Nat.digitChar (n % 10)).toNat - 48) = n
      rw [h1, h2]
      omega

theorem reprNat_inj (m n : Nat) (h : Nat.repr m = Nat.repr n) : m = n := by
  have hd : Nat.toDigits 10 m = Nat.toDigits 10 n := by
    have := congrArg String.data h
    simpa [Nat.repr, List.asString] using this
  have := congrArg accVal hd
  simpa [accVal_toDigits] using this

theorem append_cons_inj {α : Type} {c : α} : ∀ (xs1 xs2 ys1 ys2 : List α),
    xs1 ++ c :: ys1 = xs2 ++ c :: ys2 → c ∉ xs1 → c ∉ xs2 →
    xs1 = xs2 ∧ ys1 = ys2 := by
  intro xs1
  induction xs1 with
  | nil =>
      intro xs2 ys1 ys2 h h1 h2
      cases xs2 with
      | nil => simpa using h
      | cons x xs2 =>
          simp only [List.nil_append, List.cons_append, List.cons.injEq] at h
          exact absurd (h.1 ▸ List.mem_cons_self x xs2) (by simpa [h.1] using h2)
  | cons x xs1 ih =>
      intro xs2 ys1 ys2 h h1 h2
      cases xs2 with
      | nil =>
          simp only [List.cons_append, List.nil_append, List.cons.injEq] at h
          exact absurd (h.1 ▸ List.mem_cons_self x xs1) (by simpa [h.1] using h1)
      | cons y xs2 =>
          simp only [List.cons_append, List.cons.injEq] at h
          have := ih xs2 ys1 ys2 h.2 (fun hc => h1 (List.mem_cons_of_mem _ hc))
            (fun hc => h2 (List.mem_cons_of_mem _ hc))
          exact ⟨by rw [h.1, this.1], this.2⟩

/-- The shape of every name `getFnName` generates: `f"{basename}_{fnId}"`. -/
def mkFnName (basename : String) (fnId : Nat) : String :=
  basename ++ "_" ++ Nat.repr fnId

theorem mkFnName_inj (b1 b2 : String) (i1 i2 : Nat)
    (h : mkFnName b1 i1 = mkFnName b2 i2) : b1 = b2 ∧ i1 = i2 := by
  have hd : b1.data ++ '_' :: (Nat.repr i1).data =
      b2.data ++ '_' :: (Nat.repr i2).data := by
    have := congrArg String.data h
    simpa [mkFnName, String.data_append] using this
  have hr : (Nat.repr i1).data.reverse ++ '_' :: b1.data.reverse =
      (Nat.repr i2).data.reverse ++ '_' :: b2.data.reverse := by
    have := congrArg List.reverse hd
    simpa [List.reverse_append] using this
  have h1 : '_' ∉ (Nat.repr i1).data.reverse := by
    simp only [List.mem_reverse]
    intro hc
    exact (reprNat_data_chars i1 '_' hc).1 rfl
  have h2 : '_' ∉ (Nat.repr i2).data.reverse := by
    simp only [List.mem_reverse]
    intro hc
    exact (reprNat_data_chars i2 '_' hc).1 rfl
  obtain ⟨ha, hb⟩ := append_cons_inj _ _ _ _ hr h1 h2
  constructor
  · apply String.ext
    have := congrArg List.reverse hb
    simpa using this
  · apply reprNat_inj
    apply String.ext
    have := congrArg List.reverse ha
    simpa using this

/-! ## Generated function names (genPGM.py lines 137–141) -/

/-- `getFnName(fnNames, basename)`: returns `f"{basename}_{fnId}"` for the
per-basename counter `fnId = fnNames.get(basename, 0)` and bumps the
counter. -/
def getFnName (fnNames : FnNames) (basename : String) : String × FnNames :=
  let fnId := (fnNames.find? basename).getD 0
  (basename ++ "_" ++ Nat.repr fnId, fnNames.insert basename (fnId + 1))

/-- The per-basename counter as the source reads it. -/
def fnCounter (m : FnNames) (b : String) : Nat := (m.find? b).getD 0

/-- Run a sequence of `getFnName` requests, threading the counter map. -/
def runGetFnNames (m : FnNames) : List String → List String × FnNames
  | [] => ([], m)
  | b :: bs =>
      let (name, m') := getFnName m b
      let (names, mF) := runGetFnNames m' bs
      (name :: names, mF)

theorem getFnName_eq (m : FnNames) (b : String) :
    getFnName m b = (mkFnName b (fnCounter m b), m.insert b (fnCounter m b + 1)) :=
  rfl

theorem fnCounter_le_getFnName (m : FnNames) (b b' : String) :
    fnCounter m b' ≤ fnCounter (getFnName m b).2 b' := by
  by_cases h : b' = b
  · subst h
    simp [getFnName, fnCounter, PyDict.find?_insert_self]
  · simp [getFnName, fnCounter, PyDict.find?_insert_ne _ _ _ _ h]

theorem fnCounter_le_runGetFnNames (bs : List String) :
    ∀ (m : FnNames) (b : String),
    fnCounter m b ≤ fnCounter (runGetFnNames m bs).2 b := by
  induction bs with
  | nil => intro m b; simp [runGetFnNames]
  | cons b0 bs ih =>
      intro m b
      simp only [runGetFnNames]
      exact le_trans (fnCounter_le_getFnName m b0 b) (ih _ b)

theorem mem_runGetFnNames (bs : List String) :
    ∀ (m : FnNames) (name : String), name ∈ (runGetFnNames m bs).1 →
    ∃ b i, name = mkFnName b i ∧ fnCounter m b ≤ i := by
  induction bs with
  | nil => intro m name h; simp [runGetFnNames] at h
  | cons b0 bs ih =>
      intro m name h
      simp only [runGetFnNames, List.mem_cons] at h
      rcases h with h | h
      · exact ⟨b0, fnCounter m b0, by rw [h]; rfl, le_refl _⟩
      · obtain ⟨b, i, hn, hi⟩ := ih (getFnName m b0).2 name h
        exact ⟨b, i, hn, le_trans (fnCounter_le_getFnName m b0 b) hi⟩

theorem runGetFnNames_nodup (bs : List String) :
    ∀ m : FnNames, (runGetFnNames m bs).1.Nodup := by
  induction bs with
  | nil => intro m; simp [runGetFnNames]
  | cons b0 bs ih =>
      intro m
      simp only [runGetFnNames, List.nodup_cons]
      refine ⟨fun hmem => ?_, ih _⟩
      obtain ⟨b, i, hn, hi⟩ := mem_runGetFnNames bs (getFnName m b0).2 _ hmem
      obtain ⟨hb, hid⟩ := mkFnName_inj _ _ _ _ hn
      subst hb
      rw [getFnName_eq] at hi
      simp only [fnCounter, PyDict.find?_insert_self, Option.getD_some] at hi
      omega

/-- C7 (amended): names produced through `getFnName` are deterministic —
`f"{basename}_{counter}"` with the per-basename counter incremented on each
request — and any sequence of `getFnName` requests in a single run (from any
starting counter map) yields pairwise distinct names.  (Container functions
reuse the source-level function name verbatim, so distinctness of *all*
emitted names additionally needs distinct source function names; see the
counterexample.) -/
theorem generated_names_deterministic_and_distinct :
    (∀ (m : FnNames) (b : String),
      getFnName m b =
        (b ++ "_" ++ Nat.repr ((m.find? b).getD 0),
         m.insert b (((m.find? b).getD 0) + 1)))
    ∧ ∀ (m : FnNames) (bs : List String), (runGetFnNames m bs).1.Nodup :=
  ⟨fun m b => rfl, fun m bs => runGetFnNames_nodup bs m⟩

/-! ## Data model: the embedded AST and the PGM document

The AST type covers the restricted subset the claims quantify over: modules of
function definitions whose bodies contain assignments, if/else and for-range
statements, with numeric literals, name references, arithmetic binary
operators, comparisons and simple calls as expressions.  (`ast.Str`,
`ast.Subscript`, `ast.BoolOp`, `ast.AnnAssign`, attribute calls and the other
source branches are not exercised by any claim and are not embedded.) -/

/-- Python numeric literal payload (`ast.Num.n`): an `int` or a `float`.
Floats are modelled as exact rationals; no claim here depends on IEEE
rounding. -/
inductive PyNum
  | int (n : Int)
  | float (q : ℚ)
deriving DecidableEq

/-- Binary operators reachable in `ast.BinOp`.  The source's `binops` table
(lines 583–591) also lists `ast.Eq`/`ast.LtE`, but Python's parser only
produces those inside `ast.Compare`, never `ast.BinOp`. -/
inductive BinOpKind | add | sub | mult | div | pow
deriving DecidableEq

/-- Comparison operators (`ast.Compare.ops`); `genPgm` never reads them. -/
inductive CmpOpKind | cmpEq | cmpLtE
deriving DecidableEq

/-- Expression nodes.  `ast.Name` carries its context as `isStore`. -/
inductive PyExpr
  | num (n : PyNum)
  | name (id : String) (isStore : Bool)
  | binOp (left : PyExpr) (op : BinOpKind) (right : PyExpr)
  | compare (left : PyExpr) (ops : List CmpOpKind) (comparators : List PyExpr)
  | call (func : String) (args : List PyExpr)

/-- Statement nodes.  Function parameters carry the identifier of their
annotation's `.slice.value` (the source unwraps `List[...]`-style annotations
before reading it, see `getVarType`). -/
inductive PyStmt
  | assign (targets : List PyExpr) (value : PyExpr) (lineno : Nat)
  | ifStmt (test : PyExpr) (body orelse : List PyStmt) (lineno : Nat)
  | forStmt (target iter : PyExpr) (body orelse : List PyStmt)
  | functionDef (name : String) (args : List (String × String)) (body : List PyStmt)

/-- Source descriptors: the dict shapes expression lowering returns
(`{"type": "literal", ...}`, `{"var": {...}}`, `{"call": {...}}`). -/
inductive SrcDesc
  | literal (dtype : String) (value : PyNum)
  | var (varname : String) (index : Int)
  | call (function : String) (inputs : List (List SrcDesc))

/-- `{"variable": name, "index": version}`. -/
structure VarRef where
  varname : String
  index : Int
deriving DecidableEq

/-- A `{"name": ..., "type": ...}` entry in a function's `sources` list. -/
structure SourceEntry where
  name : String
  etype : String
deriving DecidableEq

/-- The three dict shapes appearing in a body record's `input` list. -/
inductive BodyInput
  | varIndex (varname : String) (index : Int)  -- `{"variable": v, "index": i}`
  | nameTyped (name etype : String)            -- `{"name": n, "type": t}`
  | nameIndex (name : String) (index : Int)    -- `{"name": n, "index": i}`
deriving DecidableEq

/-- A record of the fragment's `body` list: either a function application
record `{"name", "output", "input"}` or a loop-plate call
`{"name", "inputs", "output": {}}` (line 417). -/
inductive BodyRec
  | entry (name : String) (output : VarRef) (input : List BodyInput)
  | loopCall (name : String) (inputs : List String)
deriving DecidableEq

/-- `{"name": ..., "domain": ...}` (container inputs/variables). -/
structure NameDomain where
  name : String
  domain : String
deriving DecidableEq

/-- `index_iteration_range` (lines 390–393): each endpoint holds the whole
single-descriptor list of the corresponding `range` argument.  The JSON key of
`stop` is `"end"`. -/
structure IterRange where
  start : List SrcDesc
  stop : List SrcDesc

/-- The `body` value of an `assign`-kind function: a lambda-reference list
`[{"type": "lambda", "name", "reference"}]`, or the literal payload that
replaces it for constant assignments (lines 710–715, value stringified). -/
inductive AssignBody
  | lambdas (entries : List (String × Nat))
  | literalBody (dtype : String) (value : String)
deriving DecidableEq

/-- Emitted PGM function dicts.  The `ftype` field is the dict's `"type"`
value exactly as each emission site writes it ("assign", "container",
"loop_plate"); decision functions carry no `body` key (`body = none`). -/
inductive PGMFn
  | assignFn (name ftype target : String) (sources : List SourceEntry)
      (body : Option AssignBody)
  | containerFn (name ftype : String) (input : List NameDomain)
      (varList : List NameDomain) (body : List BodyRec)  -- JSON key: "variables"
  | loopPlateFn (name ftype : String) (input : List String)
      (indexVariable : String) (range : IterRange) (body : List BodyRec)

/-- The `"name"` field of an emitted function. -/
def PGMFn.fnname : PGMFn → String
  | .assignFn n _ _ _ _ => n
  | .containerFn n _ _ _ _ => n
  | .loopPlateFn n _ _ _ _ _ => n

/-- The `"type"` field of an emitted function. -/
def PGMFn.ftype : PGMFn → String
  | .assignFn _ t _ _ _ => t
  | .containerFn _ t _ _ _ => t
  | .loopPlateFn _ t _ _ _ _ => t

/-- A statement fragment `{"functions": [...], "body": [...]}`; top-level
bare calls contribute `"start"` entries.  A field a Python fragment dict does
not carry is modelled as the empty list (`mergeDicts` treats both alike; the
only divergence is that Python raises `KeyError` when a nested `FunctionDef`
fragment, which lacks `"body"`, reaches `get_body_and_functions` — a path no
claim exercises). -/
structure Fragment where
  functions : List PGMFn := []
  body : List BodyRec := []
  start : List String := []

/-- Modelled from the spec: the Lambda Emitter (`genFn`, whose rendering
delegates to `genCode.py`, which is not under `src/`).  Spec §4.3: it renders
a standalone unit `name(inputs...) -> value` and appends it to the lambda
sink; only the generated name, the input-variable list and the optional
return variable are observable to the claims. -/
structure LambdaEntry where
  name : String
  returnVal : Option String
  inputs : List String
deriving DecidableEq

/-- The traversal context (`PGMState.__init__`, lines 17–32), minus the
lambda sink, which is threaded separately as an output list. -/
structure PGMState where
  lastDefs : VMap
  nextDefs : VMap
  lastDefDefault : Int
  fnName : Option String
  varTypes : TMap

abbrev Err := String

/-! ## Expression lowering helpers -/

/-- `getVarType(annNode)` (lines 160–174): maps the annotation's inner
identifier to a domain tag; anything else writes "Unsupported type" and
exits. -/
def getVarType (dType : String) : Except Err String :=
  if dType = "float" then .ok "real"
  else if dType = "int" then .ok "integer"
  else if dType = "str" then .ok "str"
  else .error "Unsupported type"

/-- `getDType(val)` (lines 177–187) on the numeric values that reach it (its
string branch references an undefined Python name and is unreachable from
`genPgm`). -/
def getDType : PyNum → String
  | .int _ => "integer"
  | .float _ => "real"

/-- The rational a Python number denotes. -/
def pyRat : PyNum → ℚ
  | .int n => (n : ℚ)
  | .float q => q

/-- The source's `binops` table applied to two `ast.Num` payloads
(lines 592–602).  `int` arithmetic is exact; `float` results are exact
rationals.  `none` models an arithmetic exception (`ZeroDivisionError`) or a
result outside the exact fragment (a non-integer exponent, which Python would
approximate in floating point; no claim exercises that case). -/
def applyBinop : BinOpKind → PyNum → PyNum → Option PyNum
  | .add, .int a, .int b => some (.int (a + b))
  | .add, a, b => some (.float (pyRat a + pyRat b))
  | .sub, .int a, .int b => some (.int (a - b))
  | .sub, a, b => some (.float (pyRat a - pyRat b))
  | .mult, .int a, .int b => some (.int (a * b))
  | .mult, a, b => some (.float (pyRat a * pyRat b))
  | .div, a, b =>
      if pyRat b = 0 then none else some (.float (pyRat a / pyRat b))
  | .pow, .int a, .int b =>
      if 0 ≤ b then some (.int (a ^ b.toNat))
      else if a = 0 then none
      else some (.float ((a : ℚ) ^ b))
  | .pow, a, b =>
      if (pyRat b).den = 1 then
        if pyRat a = 0 ∧ (pyRat b).num < 0 then none
        else some (.float (pyRat a ^ (pyRat b).num))
      else none

/-- Python f-string of an `Optional[str]` (`f"{state.fnName}"`). -/
def pyStr : Option String → String
  | some s => s
  | none => "None"

/-- Python `f"{value}"` for a numeric literal payload.  Integers are exact;
Python's float decimal formatting is not reproduced (no claim reads the
string). -/
def pyNumStr : PyNum → String
  | .int n => Int.repr n
  | .float q => toString q

/-- `isinstance(node.left, ast.Num) and isinstance(node.right, ast.Num)`
(line 592), paired with the two literal payloads: `none` when either operand
is not a numeric literal. -/
def numOperands : PyExpr → PyExpr → Option (PyNum × PyNum)
  | .num a, .num b => some (a, b)
  | _, _ => none

/-! ## Expression lowering (`genPgm` on expression nodes) -/

mutual

/-- `genPgm` on a single expression node (branches at lines 335, 581–605,
640–644, 664–672, 767–784).  Returns the descriptor list and the mutated
context. -/
def genPgmExpr : PyExpr → PGMState → Except Err (List SrcDesc × PGMState)
  | .num n, s => .ok ([.literal (getDType n) n], s)
  | .name id isStore, s =>
      let (lastDef, lds) := getLastDef id s.lastDefs s.lastDefDefault
      let s1 := {s with lastDefs := lds}
      if isStore then
        let (idx, lds', nds') :=
          getNextDef id s1.lastDefs s1.nextDefs s1.lastDefDefault
        .ok ([.var id idx], {s1 with lastDefs := lds', nextDefs := nds'})
      else
        .ok ([.var id lastDef], s1)
  | .binOp l op r, s =>
      match numOperands l r with
      | some (a, b) =>
          match applyBinop op a b with
          | some v => .ok ([.literal (getDType v) v], s)
          | none => .error "arithmetic error during constant folding"
      | none => do
          let (ld, s1) ← genPgmExpr l s
          let (rd, s2) ← genPgmExpr r s1
          .ok (ld ++ rd, s2)
  | .compare l ops comps, s => do
      let (ld, s1) ← genPgmExpr l s
      let (cd, s2) ← genPgmExprFlat comps s1
      .ok (ld ++ cd, s2)
  | .call f args, s => do
      let (inputs, s') ← genPgmArgs args s
      .ok ([.call f inputs], s')

/-- The `isinstance(node, list)` branch (lines 272–275):
`chain.from_iterable`, i.e. flattened concatenation. -/
def genPgmExprFlat : List PyExpr → PGMState → Except Err (List SrcDesc × PGMState)
  | [], s => .ok ([], s)
  | e :: rest, s => do
      let (d, s1) ← genPgmExpr e s
      let (ds, s2) ← genPgmExprFlat rest s1
      .ok (d ++ ds, s2)

/-- Per-argument lowering in the `ast.Call` branch (lines 778–780): one
descriptor list per syntactic argument. -/
def genPgmArgs : List PyExpr → PGMState →
    Except Err (List (List SrcDesc) × PGMState)
  | [], s => .ok ([], s)
  | e :: rest, s => do
      let (d, s1) ← genPgmExpr e s
      let (ds, s2) ← genPgmArgs rest s1
      .ok (d :: ds, s2)

end

/-! ## Assignment emission helpers (genPGM.py lines 196–246, 722–765) -/

/-- `make_call_body_dict(source, "fn")` (lines 217–229): the function-name
entry, then one `{"name", "type": "variable"}` entry per variable reference
among the call's argument descriptors. -/
def make_call_body_dict_fn (function : String) (inputs : List (List SrcDesc)) :
    List SourceEntry :=
  ⟨function, "function"⟩ ::
    (inputs.map (fun ip => ip.filterMap (fun d =>
      match d with
      | .var v _ => some (⟨v, "variable"⟩ : SourceEntry)
      | _ => none))).join

/-- `make_call_body_dict(source, "body")`: same iteration, emitting
`{"name", "index"}` entries. -/
def make_call_body_dict_body (function : String) (inputs : List (List SrcDesc)) :
    List BodyInput :=
  .nameTyped function "function" ::
    (inputs.map (fun ip => ip.filterMap (fun d =>
      match d with
      | .var v i => some (BodyInput.nameIndex v i)
      | _ => none))).join

/-- `make_fn_dict` (lines 196–214). -/
def make_fn_dict (name : String) (target : VarRef) (sources : List SrcDesc)
    (lambdaName : String) (lineno : Nat) : PGMFn :=
  let source := (sources.map (fun src =>
    match src with
    | .call f inputs => make_call_body_dict_fn f inputs
    | .var v _ => [(⟨v, "variable"⟩ : SourceEntry)]
    | _ => [])).join
  .assignFn name "assign" target.varname source (some (.lambdas [(lambdaName, lineno)]))

/-- `make_body_dict` (lines 232–246). -/
def make_body_dict (name : String) (target : VarRef) (sources : List SrcDesc) :
    BodyRec :=
  let input_list := (sources.map (fun src =>
    match src with
    | .call f inputs => make_call_body_dict_body f inputs
    | .var v i => [BodyInput.varIndex v i]
    | _ => [])).join
  .entry name target input_list

/-- The `source_list` built for `genFn` in the `ast.Assign` branch
(lines 742–749): variable names, and for call descriptors the callee name
followed by the variables of the *first* argument only (an empty argument
list raises `IndexError`). -/
def assignSourceList : List SrcDesc → Except Err (List String)
  | [] => .ok []
  | src :: rest => do
      let rest' ← assignSourceList rest
      match src with
      | .var v _ => .ok (v :: rest')
      | .call f inputs =>
          match inputs with
          | [] => .error "IndexError: list index out of range"
          | ip0 :: _ =>
              .ok (f :: ((ip0.filterMap (fun d =>
                    match d with
                    | .var v _ => some v
                    | _ => none)) ++ rest'))
      | _ => .ok rest'

/-- The per-target loop of the `ast.Assign` branch (lines 732–764): every
target descriptor must be variable-shaped (Python raises `KeyError`
otherwise).  The literal-body override (lines 757–762) replaces the lambda
reference when the function's `sources` list is empty and the single source
is a literal (the only reachable shape for that condition). -/
def assignLoop (stmtLineno : Nat) (sources : List SrcDesc) (fnStem : String) :
    List SrcDesc → FnNames → List LambdaEntry →
      Except Err (List PGMFn × List BodyRec × FnNames × List LambdaEntry)
  | [], fnNames, lam => .ok ([], [], fnNames, lam)
  | .var tv ti :: rest, fnNames, lam => do
      let (name, fnNames) := getFnName fnNames (fnStem ++ "__assign__" ++ tv)
      let (lambdaName, fnNames) := getFnName fnNames (fnStem ++ "__lambda__" ++ tv)
      let fn := make_fn_dict name ⟨tv, ti⟩ sources lambdaName stmtLineno
      let body := make_body_dict name ⟨tv, ti⟩ sources
      let source_list ← assignSourceList sources
      let lam := lam ++ [⟨lambdaName, some tv, source_list⟩]
      let fn := match fn, sources with
        | .assignFn n t tg [] _, [.literal dt v] =>
            .assignFn n t tg [] (some (.literalBody dt (pyNumStr v)))
        | fn, _ => fn
      let (fns, bodies, fnNames, lam) ←
        assignLoop stmtLineno sources fnStem rest fnNames lam
      .ok (fn :: fns, body :: bodies, fnNames, lam)
  | _ :: _, _, _ => .error "KeyError: var"

/-! ## Conditional lowering helpers (genPGM.py lines 423–575) -/

/-- First-occurrence deduplication, standing in for Python's
`set(...).union(...)` (whose iteration order is unspecified; no claim depends
on the order chosen). -/
def dedupFirst : List String → List String
  | [] => []
  | a :: l => a :: (dedupFirst l).filter (fun b => b ≠ a)

/-- Lines 506–514: the variables whose version differs among the pre-branch
baseline, the then-context and the else-context. -/
def updatedVars (startDefs ifDefs elseDefs : VMap) : List String :=
  (dedupFirst (startDefs.keys ++ ifDefs.keys ++ elseDefs.keys)).filter
    (fun v => !(startDefs.contains v)
      || (ifDefs.find? v != startDefs.find? v)
      || (elseDefs.find? v != startDefs.find? v))

/-- Lines 516–542: the version list `[startDefs.get, ifDefs.get,
elseDefs.get]` stripped of `None`s, and the merge-input list built from its
last two entries (`versions[-1]`, `versions[-2]`) or its only entry.  The
`headD`/`getLastD` defaults are unreachable: every updated variable is
present in at least one of the three maps. -/
def decisionInputs (condOutput : VarRef) (v : String) (versions : List Int) :
    List BodyInput :=
  if versions.length > 1 then
    [.varIndex condOutput.varname condOutput.index,
     .varIndex v (versions.getLastD 0),
     .varIndex v ((versions.reverse.drop 1).headD 0)]
  else
    [.varIndex condOutput.varname condOutput.index,
     .varIndex v (versions.headD 0)]

/-- Lines 560–567: a decision function's `sources`,
`f"{var['variable']}_{var['index']}"` per input.  (Only `varIndex` inputs
reach this; the other shapes would raise `KeyError` in Python.) -/
def decisionSources (inputs : List BodyInput) : List SourceEntry :=
  inputs.map fun inp =>
    match inp with
    | .varIndex v i => ⟨v ++ "_" ++ Int.repr i, "variable"⟩
    | .nameTyped n _ => ⟨n, "variable"⟩
    | .nameIndex n i => ⟨n ++ "_" ++ Int.repr i, "variable"⟩

/-- Lines 528–573: the decision-synthesis loop at the exit of a conditional,
one iteration per updated variable, threading the enclosing context (whose
`lastDefs`/`nextDefs` receive the merge outputs via `getNextDef`). -/
def decisionsGo (condOutput : VarRef) (startDefs ifDefs elseDefs : VMap)
    (fnStem : String) :
    List String → PGMState → FnNames →
      List PGMFn × List BodyRec × PGMState × FnNames
  | [], s, fnNames => ([], [], s, fnNames)
  | v :: rest, s, fnNames =>
      let versions :=
        [startDefs.find? v, ifDefs.find? v, elseDefs.find? v].filterMap id
      let inputs := decisionInputs condOutput v versions
      let nd := getNextDef v s.lastDefs s.nextDefs s.lastDefDefault
      let s' := {s with lastDefs := nd.2.1, nextDefs := nd.2.2}
      let fnp := getFnName fnNames (fnStem ++ "__decision__" ++ v)
      let fnD := PGMFn.assignFn fnp.1 "assign" v (decisionSources inputs) none
      let bodyD := BodyRec.entry fnp.1 ⟨v, nd.1⟩ inputs
      let rec0 :=
        decisionsGo condOutput startDefs ifDefs elseDefs fnStem rest s' fnp.2
      (fnD :: rec0.1, bodyD :: rec0.2.1, rec0.2.2.1, rec0.2.2.2)

/-- Lines 506–573 assembled: decisions for all updated variables. -/
def ifDecisions (condOutput : VarRef) (startDefs ifDefs elseDefs : VMap)
    (fnStem : String) (s : PGMState) (fnNames : FnNames) :
    List PGMFn × List BodyRec × PGMState × FnNames :=
  decisionsGo condOutput startDefs ifDefs elseDefs fnStem
    (updatedVars startDefs ifDefs elseDefs) s fnNames

/-- The condition-phase results handed back to the `ast.If` handler. -/
structure CondInfo where
  condName : String
  condOutput : VarRef
  condFn : PGMFn
  condBody : BodyRec

def isVarDesc : SrcDesc → Bool
  | .var _ _ => true
  | _ => false

/-- Lines 426–488: condition-variable synthesis for `ast.If`, given the
already-lowered test descriptors.  When the test lowered to more than two
descriptors, the source iterates each descriptor dict's *keys* and tests
`"var" in src` as substring membership in the key string: a variable
descriptor (key `"var"`) then crashes with `TypeError: string indices`, while
literal/call descriptors (keys `"type"`/`"dtype"`/`"value"`/`"call"`)
contribute nothing. -/
def ifCondPhase (condSrcs : List SrcDesc) (lineno : Nat) (s : PGMState)
    (fnNames : FnNames) (lam : List LambdaEntry) :
    Except Err (CondInfo × PGMState × FnNames × List LambdaEntry) := do
  let condNum := (s.nextDefs.find? "#cond").getD (s.lastDefDefault + 1)
  let s := {s with nextDefs := s.nextDefs.insert "#cond" (condNum + 1)}
  let condName := "IF_" ++ Int.repr condNum
  let s := {s with varTypes := s.varTypes.insert condName "boolean",
                   lastDefs := s.lastDefs.insert condName 0}
  let (fnName, fnNames) :=
    getFnName fnNames (pyStr s.fnName ++ "__condition__" ++ condName)
  let condOutput : VarRef := ⟨condName, 0⟩
  let (lambdaName, fnNames) :=
    getFnName fnNames (pyStr s.fnName ++ "__lambda__" ++ condName)
  let (sources, inputs) ←
    if condSrcs.length > 2 then
      if condSrcs.any isVarDesc then
        Except.error "TypeError: string indices must be integers"
      else
        Except.ok (([] : List SourceEntry), ([] : List BodyInput))
    else
      Except.ok
        (condSrcs.filterMap (fun d =>
            match d with
            | .var v _ => some (⟨v, "variable"⟩ : SourceEntry)
            | _ => none),
         condSrcs.filterMap (fun d =>
            match d with
            | .var v i => some (BodyInput.varIndex v i)
            | _ => none))
  let fn := PGMFn.assignFn fnName "assign" condName sources
      (some (.lambdas [(lambdaName, lineno)]))
  let body := BodyRec.entry fnName condOutput inputs
  let lam := lam ++ [⟨lambdaName, none, sources.map SourceEntry.name⟩]
  .ok (⟨condName, condOutput, fn, body⟩, s, fnNames, lam)

/-! ## Remaining statement helpers -/

/-- The `ast.arguments`/`ast.arg` branches (lines 312–318): register each
parameter's domain and collect the parameter names. -/
def processArgs : List (String × String) → PGMState →
    Except Err (List String × PGMState)
  | [], s => .ok ([], s)
  | (argName, ann) :: rest, s => do
      let dType ← getVarType ann
      let s1 := {s with varTypes := s.varTypes.insert argName dType}
      let (names, s') ← processArgs rest s1
      .ok (argName :: names, s')

/-- `{"name": v, "domain": localTypes[v]}` rows (lines 296–301); a variable
without a registered type raises `KeyError`. -/
def domainsOf (varTypes : TMap) : List String → Except Err (List NameDomain)
  | [] => .ok []
  | v :: rest =>
      match varTypes.find? v with
      | some d => do
          let rest' ← domainsOf varTypes rest
          .ok ((⟨v, d⟩ : NameDomain) :: rest')
      | none => .error "KeyError: varTypes"

/-- `get_body_and_functions` (lines 190–193). -/
def get_body_and_functions (pgm : List Fragment) :
    List BodyRec × List PGMFn :=
  ((pgm.map Fragment.body).join, (pgm.map Fragment.functions).join)

/-- `mergeDicts` (lines 123–134) on fragments: per-field concatenation in
fragment order.  (Python iterates a `set` of field names, whose order is
unspecified; only the per-field list contents, concatenated in fragment
order, are observable.) -/
def mergeFragments (frags : List Fragment) : Fragment :=
  { functions := (frags.map Fragment.functions).join
    body := (frags.map Fragment.body).join
    start := (frags.map Fragment.start).join }

/-! ## Statement lowering (`genPgm` on statement nodes) -/

mutual

/-- `genPgm` on one statement node.  Outside any function (`state.fnName is
None`, lines 262–270) only `FunctionDef` is lowered; a top-level `If`
recurses into its body, other statements yield nothing. -/
def genPgmStmt : PyStmt → PGMState → FnNames → List LambdaEntry →
    Except Err (List Fragment × PGMState × FnNames × List LambdaEntry)
  | .functionDef nm args body, s, fnNames, lam => do
      -- lines 278–309: `localDefs`/`localNext`/`localTypes` are value copies;
      -- the parent context is untouched by the nested lowering.
      let fnState : PGMState :=
        { lastDefs := s.lastDefs, nextDefs := s.nextDefs,
          lastDefDefault := s.lastDefDefault, fnName := some nm,
          varTypes := s.varTypes }
      let (argNames, fnState1) ← processArgs args fnState
      let (bodyPgm, fnState2, fnNames1, lam1) ←
        genPgmStmtList body fnState1 fnNames lam
      let (bodyRecs, fns) := get_body_and_functions bodyPgm
      let variableNames := fnState2.lastDefs.keys
      let inputPairs ← domainsOf fnState2.varTypes argNames
      let varPairs ← domainsOf fnState2.varTypes variableNames
      let fnDef := PGMFn.containerFn nm "container" inputPairs varPairs bodyRecs
      -- line 307: the FunctionDef fragment carries only `"functions"`.
      .ok ([{ functions := fns ++ [fnDef] }], s, fnNames1, lam1)
  | .assign targets value lineno, s, fnNames, lam =>
      if s.fnName = none then .ok ([], s, fnNames, lam)
      else do
        let (sources, s1) ← genPgmExpr value s
        let (targetDescs, s2) ←
          match targets with
          | [t] => genPgmExpr t s1
          | _ => Except.error "TypeError: reduce over multiple assignment targets"
        let (fns, bodies, fnNames1, lam1) ←
          assignLoop lineno sources (pyStr s2.fnName) targetDescs fnNames lam
        .ok ([{ functions := fns, body := bodies }], s2, fnNames1, lam1)
  | .ifStmt test body orelse lineno, s, fnNames, lam =>
      if s.fnName = none then genPgmStmtList body s fnNames lam
      else do
        let (condSrcs, s0) ← genPgmExpr test s
        let (info, s1, fnNames1, lam1) ←
          ifCondPhase condSrcs lineno s0 fnNames lam
        -- lines 490–496: the branch contexts copy only `lastDefs`
        -- (`state.copy(lastDefs=ifDefs)`): `nextDefs` and `varTypes` remain
        -- the parent's own dicts, shared with both branches.
        let (ifPgm, s2, fnNames2, lam2) ← genPgmStmtList body s1 fnNames1 lam1
        let (elsePgm, s3, fnNames3, lam3) ←
          genPgmStmtList orelse {s2 with lastDefs := s1.lastDefs} fnNames2 lam2
        let dec :=
          ifDecisions info.condOutput s1.lastDefs s2.lastDefs s3.lastDefs
            (pyStr s1.fnName) {s3 with lastDefs := s1.lastDefs} fnNames3
        let functions := info.condFn ::
          ((ifPgm.map Fragment.functions).join ++
           (elsePgm.map Fragment.functions).join ++ dec.1)
        let bodies := info.condBody ::
          ((ifPgm.map Fragment.body).join ++
           (elsePgm.map Fragment.body).join ++ dec.2.1)
        .ok ([{ functions := functions, body := bodies }], dec.2.2.1,
          dec.2.2.2, lam3)
  | .forStmt target iter body orelse, s, fnNames, lam =>
      if s.fnName = none then .ok ([], s, fnNames, lam)
      else do
        -- line 354: the else-suite is lowered first (mutating the context)
        -- and must produce no fragment.
        let (orelsePgm, s0, fnNames0, lam0) ← genPgmStmtList orelse s fnNames lam
        match orelsePgm with
        | _ :: _ => .error "For/Else in for not supported"
        | [] => do
          let (indexVar, s1) ← genPgmExpr target s0
          match indexVar with
          | [.var indexName _] => do
              let (loopIter, s2) ← genPgmExpr iter s1
              match loopIter with
              | [.call "range" inputs] =>
                  -- lines 374–388.  The last two disjuncts test
                  -- `"type" in rangeCall["inputs"][i]` where the operand is a
                  -- *list* of descriptor dicts: a string never equals a dict,
                  -- so those disjuncts are constantly false and literal
                  -- endpoints are not rejected.
                  if inputs.length ≠ 2
                      ∨ (inputs.headD []).length ≠ 1
                      ∨ ((inputs.drop 1).headD []).length ≠ 1
                      ∨ (inputs.headD []).any (fun _ => false)
                      ∨ ((inputs.drop 1).headD []).any (fun _ => false) then
                    .error "Can only iterate over a constant range"
                  else do
                    let iterationRange : IterRange :=
                      { start := inputs.headD [],
                        stop := (inputs.drop 1).headD [] }
                    -- lines 395–398: fresh `lastDefs`/`nextDefs`,
                    -- `lastDefDefault = -1`; `varTypes` stays aliased.
                    let loopState : PGMState :=
                      { lastDefs := ∅, nextDefs := ∅, lastDefDefault := -1,
                        fnName := s2.fnName, varTypes := s2.varTypes }
                    let (loop, s3, fnNames1, lam1) ←
                      genPgmStmtList body loopState fnNames0 lam0
                    let (loopBody, loopFns) := get_body_and_functions loop
                    let variableNames :=
                      s3.lastDefs.keys.filter (fun x => x ≠ indexName)
                    let (loopName, fnNames2) := getFnName fnNames1
                      (pyStr s2.fnName ++ "__loop_plate__" ++ indexName)
                    let loopFn := PGMFn.loopPlateFn loopName "loop_plate"
                      variableNames indexName iterationRange loopBody
                    let loopCall := BodyRec.loopCall loopName variableNames
                    -- the parent keeps its own version maps and default;
                    -- only the aliased `varTypes` carries body-side writes.
                    let sOut : PGMState :=
                      { lastDefs := s2.lastDefs, nextDefs := s2.nextDefs,
                        lastDefDefault := s2.lastDefDefault,
                        fnName := s2.fnName, varTypes := s3.varTypes }
                    .ok ([{ functions := loopFns ++ [loopFn],
                            body := [loopCall] }], sOut, fnNames2, lam1)
              | _ => .error "Can only iterate over a range"
          | _ => .error "Only one index variable is supported"

/-- `genPgm` on a statement list (lines 272–275): concatenate the fragment
lists, threading the context. -/
def genPgmStmtList : List PyStmt → PGMState → FnNames → List LambdaEntry →
    Except Err (List Fragment × PGMState × FnNames × List LambdaEntry)
  | [], s, fnNames, lam => .ok ([], s, fnNames, lam)
  | stmt :: rest, s, fnNames, lam => do
      let (frags, s1, fnNames1, lam1) ← genPgmStmt stmt s fnNames lam
      let (fragsRest, s2, fnNames2, lam2) ← genPgmStmtList rest s1 fnNames1 lam1
      .ok (frags ++ fragsRest, s2, fnNames2, lam2)

end

/-- The `ast.Module` branch (lines 787–792): lower each top-level statement
and merge the fragments into one. -/
def genPgmModule (body : List PyStmt) (s : PGMState) (fnNames : FnNames)
    (lam : List LambdaEntry) :
    Except Err (Fragment × PGMState × FnNames × List LambdaEntry) := do
  let (frags, s', fnNames1, lam1) ← genPgmStmtList body s fnNames lam
  .ok (mergeFragments frags, s', fnNames1, lam1)

/-- The root traversal context of `create_pgm_dict` (lines 827–840). -/
def initState : PGMState :=
  { lastDefs := ∅, nextDefs := ∅, lastDefDefault := 0, fnName := none,
    varTypes := ∅ }

/-- One translation run over a module body. -/
def translateRun (body : List PyStmt) :
    Except Err (Fragment × PGMState × FnNames × List LambdaEntry) :=
  genPgmModule body initState ∅ []

/-! ## Frame lemma: expression lowering never removes version entries -/

theorem except_bind_ok {α β : Type} (x : Except Err α) (f : α → Except Err β)
    (b : β) (h : x >>= f = .ok b) : ∃ a, x = .ok a ∧ f a = .ok b := by
  cases x with
  | error e => simp [Bind.bind, Except.bind] at h
  | ok a => exact ⟨a, rfl, by simpa [Bind.bind, Except.bind] using h⟩

theorem getLastDef_contains (id : String) (lds : VMap) (d : Int) (v : String)
    (h : lds.contains v = true) :
    (getLastDef id lds d).2.contains v = true := by
  unfold getLastDef
  cases hf : lds.find? id with
  | some i => simpa using h
  | none => simpa using PyDict.contains_insert_of_contains _ _ _ _ h

mutual

theorem genPgmExpr_mono : ∀ (e : PyExpr) (s : PGMState) (ds : List SrcDesc)
    (s' : PGMState), genPgmExpr e s = .ok (ds, s') → ∀ (v : String),
    (s.lastDefs.contains v = true → s'.lastDefs.contains v = true) ∧
    (s.nextDefs.contains v = true → s'.nextDefs.contains v = true)
  | .num n, s, ds, s', h, v => by
      simp only [genPgmExpr, Except.ok.injEq, Prod.mk.injEq] at h
      obtain ⟨-, rfl⟩ := h
      exact ⟨id, id⟩
  | .name id isStore, s, ds, s', h, v => by
      rcases hgl : getLastDef id s.lastDefs s.lastDefDefault with ⟨i, lds⟩
      cases isStore with
      | false =>
          simp only [genPgmExpr, hgl, Bool.false_eq_true, if_false,
            Except.ok.injEq, Prod.mk.injEq] at h
          obtain ⟨-, rfl⟩ := h
          refine ⟨fun hc => ?_, fun hc => hc⟩
          have h2 := getLastDef_contains id s.lastDefs s.lastDefDefault v hc
          rw [hgl] at h2
          exact h2
      | true =>
          simp only [genPgmExpr, hgl, if_true, getNextDef,
            Except.ok.injEq, Prod.mk.injEq] at h
          obtain ⟨-, rfl⟩ := h
          refine ⟨fun hc => ?_, fun hc => ?_⟩
          · apply PyDict.contains_insert_of_contains
            have h2 := getLastDef_contains id s.lastDefs s.lastDefDefault v hc
            rw [hgl] at h2
            exact h2
          · exact PyDict.contains_insert_of_contains _ _ _ _ hc
  | .binOp l op r, s, ds, s', h, v => by
      cases hno : numOperands l r with
      | some p =>
          obtain ⟨a, b⟩ := p
          cases hab : applyBinop op a b with
          | some w =>
              simp only [genPgmExpr, hno, hab, Except.ok.injEq,
                Prod.mk.injEq] at h
              obtain ⟨-, rfl⟩ := h
              exact ⟨id, id⟩
          | none => simp [genPgmExpr, hno, hab] at h
      | none =>
          simp only [genPgmExpr, hno] at h
          obtain ⟨⟨ld, s1⟩, hl, h⟩ := except_bind_ok _ _ _ h
          obtain ⟨⟨rd, s2⟩, hr, h⟩ := except_bind_ok _ _ _ h
          simp only [Except.ok.injEq, Prod.mk.injEq] at h
          obtain ⟨-, rfl⟩ := h
          have ihl := genPgmExpr_mono l s ld s1 hl v
          have ihr := genPgmExpr_mono r s1 rd s2 hr v
          exact ⟨fun hc => ihr.1 (ihl.1 hc), fun hc => ihr.2 (ihl.2 hc)⟩
  | .compare l ops comps, s, ds, s', h, v => by
      simp only [genPgmExpr] at h
      obtain ⟨⟨ld, s1⟩, hl, h⟩ := except_bind_ok _ _ _ h
      obtain ⟨⟨cd, s2⟩, hc', h⟩ := except_bind_ok _ _ _ h
      simp only [Except.ok.injEq, Prod.mk.injEq] at h
      obtain ⟨-, rfl⟩ := h
      have ihl := genPgmExpr_mono l s ld s1 hl v
      have ihc := genPgmExprFlat_mono comps s1 cd s2 hc' v
      exact ⟨fun hc => ihc.1 (ihl.1 hc), fun hc => ihc.2 (ihl.2 hc)⟩
  | .call f args, s, ds, s', h, v => by
      simp only [genPgmExpr] at h
      obtain ⟨⟨ins, s1⟩, ha, h⟩ := except_bind_ok _ _ _ h
      simp only [Except.ok.injEq, Prod.mk.injEq] at h
      obtain ⟨-, rfl⟩ := h
      exact genPgmArgs_mono args s ins s1 ha v

theorem genPgmExprFlat_mono : ∀ (es : List PyExpr) (s : PGMState)
    (ds : List SrcDesc) (s' : PGMState),
    genPgmExprFlat es s = .ok (ds, s') → ∀ (v : String),
    (s.lastDefs.contains v = true → s'.lastDefs.contains v = true) ∧
    (s.nextDefs.contains v = true → s'.nextDefs.contains v = true)
  | [], s, ds, s', h, v => by
      simp only [genPgmExprFlat, Except.ok.injEq, Prod.mk.injEq] at h
      obtain ⟨-, rfl⟩ := h
      exact ⟨id, id⟩
  | e :: rest, s, ds, s', h, v => by
      simp only [genPgmExprFlat] at h
      obtain ⟨⟨d, s1⟩, he, h⟩ := except_bind_ok _ _ _ h
      obtain ⟨⟨dr, s2⟩, hr, h⟩ := except_bind_ok _ _ _ h
      simp only [Except.ok.injEq, Prod.mk.injEq] at h
      obtain ⟨-, rfl⟩ := h
      have ih1 := genPgmExpr_mono e s d s1 he v
      have ih2 := genPgmExprFlat_mono rest s1 dr s2 hr v
      exact ⟨fun hc => ih2.1 (ih1.1 hc), fun hc => ih2.2 (ih1.2 hc)⟩

theorem genPgmArgs_mono : ∀ (es : List PyExpr) (s : PGMState)
    (ds : List (List SrcDesc)) (s' : PGMState),
    genPgmArgs es s = .ok (ds, s') → ∀ (v : String),
    (s.lastDefs.contains v = true → s'.lastDefs.contains v = true) ∧
    (s.nextDefs.contains v = true → s'.nextDefs.contains v = true)
  | [], s, ds, s', h, v => by
      simp only [genPgmArgs, Except.ok.injEq, Prod.mk.injEq] at h
      obtain ⟨-, rfl⟩ := h
      exact ⟨id, id⟩
  | e :: rest, s, ds, s', h, v => by
      simp only [genPgmArgs] at h
      obtain ⟨⟨d, s1⟩, he, h⟩ := except_bind_ok _ _ _ h
      obtain ⟨⟨dr, s2⟩, hr, h⟩ := except_bind_ok _ _ _ h
      simp only [Except.ok.injEq, Prod.mk.injEq] at h
      obtain ⟨-, rfl⟩ := h
      have ih1 := genPgmExpr_mono e s d s1 he v
      have ih2 := genPgmArgs_mono rest s1 dr s2 hr v
      exact ⟨fun hc => ih2.1 (ih1.1 hc), fun hc => ih2.2 (ih1.2 hc)⟩

end

/-! ## The success path of the `ast.For` handler -/

theorem forStmt_success (tgt iter : PyExpr) (body : List PyStmt)
    (s s1 s2 s3 : PGMState) (fnNames fn1 : FnNames)
    (lam lam1 : List LambdaEntry) (ixName : String) (k : Int)
    (d1 d2 : SrcDesc) (loop : List Fragment)
    (hfn : s.fnName ≠ none)
    (htgt : genPgmExpr tgt s = .ok ([.var ixName k], s1))
    (hiter : genPgmExpr iter s1 = .ok ([.call "range" [[d1], [d2]]], s2))
    (hbody : genPgmStmtList body
        { lastDefs := ∅, nextDefs := ∅, lastDefDefault := -1,
          fnName := s2.fnName, varTypes := s2.varTypes } fnNames lam =
      .ok (loop, s3, fn1, lam1)) :
    genPgmStmt (.forStmt tgt iter body []) s fnNames lam =
      .ok ([{ functions := (loop.map Fragment.functions).join ++
                [PGMFn.loopPlateFn
                  (getFnName fn1 (pyStr s2.fnName ++ "__loop_plate__" ++ ixName)).1
                  "loop_plate"
                  (s3.lastDefs.keys.filter (fun x => x ≠ ixName))
                  ixName ⟨[d1], [d2]⟩ ((loop.map Fragment.body).join)],
              body := [BodyRec.loopCall
                  (getFnName fn1 (pyStr s2.fnName ++ "__loop_plate__" ++ ixName)).1
                  (s3.lastDefs.keys.filter (fun x => x ≠ ixName))] }],
            { lastDefs := s2.lastDefs, nextDefs := s2.nextDefs,
              lastDefDefault := s2.lastDefDefault, fnName := s2.fnName,
              varTypes := s3.varTypes },
            (getFnName fn1 (pyStr s2.fnName ++ "__loop_plate__" ++ ixName)).2,
            lam1) := by
  simp only [genPgmStmt, if_neg hfn, genPgmStmtList, Bind.bind, Except.bind]
  simp only [htgt]
  simp only [hiter]
  rw [if_neg (by simp)]
  simp only [hbody]
  rfl

/-- C9: lowering a `for` statement (inside a function) lowers the index
target with the *enclosing* context before the fresh loop context is opened:
after any successful lowering of `for ix in ...`, the enclosing context's
`lastDefs` and `nextDefs` both carry an entry for the index variable, even
though the loop body itself was lowered under empty version maps. -/
theorem for_index_version_in_enclosing_scope
    (ix : String) (iter : PyExpr) (body orelse : List PyStmt)
    (s s' : PGMState) (fnNames fn' : FnNames) (lam lam' : List LambdaEntry)
    (frags : List Fragment)
    (hfn : s.fnName ≠ none)
    (h : genPgmStmt (.forStmt (.name ix true) iter body orelse) s fnNames lam =
      .ok (frags, s', fn', lam')) :
    s'.lastDefs.contains ix = true ∧ s'.nextDefs.contains ix = true := by
  simp only [genPgmStmt, if_neg hfn, Bind.bind, Except.bind] at h
  cases horel : genPgmStmtList orelse s fnNames lam with
  | error e => simp [horel] at h
  | ok v =>
    obtain ⟨orelsePgm, s0, fn0, lam0⟩ := v
    cases orelsePgm with
    | cons f fs => simp [horel] at h
    | nil =>
      rcases hgl : getLastDef ix s0.lastDefs s0.lastDefDefault with ⟨i0, lds⟩
      have hcomp : genPgmExpr (.name ix true) s0 =
          .ok ([.var ix ((s0.nextDefs.find? ix).getD (s0.lastDefDefault + 1))],
            { s0 with
              lastDefs := lds.insert ix
                ((s0.nextDefs.find? ix).getD (s0.lastDefDefault + 1)),
              nextDefs := s0.nextDefs.insert ix
                ((s0.nextDefs.find? ix).getD (s0.lastDefDefault + 1) + 1) }) := by
        simp [genPgmExpr, hgl, getNextDef]
      simp only [horel, hcomp] at h
      cases hiter : genPgmExpr iter
          { s0 with
            lastDefs := lds.insert ix
              ((s0.nextDefs.find? ix).getD (s0.lastDefDefault + 1)),
            nextDefs := s0.nextDefs.insert ix
              ((s0.nextDefs.find? ix).getD (s0.lastDefDefault + 1) + 1) } with
      | error e => simp [hiter] at h
      | ok v2 =>
        obtain ⟨descs, s2⟩ := v2
        have hmono := genPgmExpr_mono _ _ _ _ hiter ix
        have hlast : s2.lastDefs.contains ix = true := by
          apply hmono.1
          exact PyDict.contains_insert_self _ _ _
        have hnext : s2.nextDefs.contains ix = true := by
          apply hmono.2
          exact PyDict.contains_insert_self _ _ _
        simp only [hiter] at h
        clear hmono hcomp hiter
        split at h
        · split at h
          · exact Except.noConfusion h
          · cases hbody : genPgmStmtList body
                { lastDefs := ∅, nextDefs := ∅, lastDefDefault := -1,
                  fnName := s2.fnName, varTypes := s2.varTypes } fn0 lam0 with
            | error e => simp [hbody] at h
            | ok v3 =>
              obtain ⟨loop, s3, fn3, lam3⟩ := v3
              simp only [hbody, Except.ok.injEq, Prod.mk.injEq] at h
              obtain ⟨-, hs', -, -⟩ := h
              rw [← hs']
              exact ⟨hlast, hnext⟩
        · exact Except.noConfusion h

/-! ## Concrete example programs and extraction helpers -/

/-- `def f(c: int, x: int): if c <= x: x = 1 else: x = 2`. -/
def ifExProg : PyStmt :=
  .functionDef "f" [("c", "int"), ("x", "int")]
    [ .ifStmt (.compare (.name "c" false) [.cmpLtE] [.name "x" false])
        [.assign [.name "x" true] (.num (.int 1)) 3]
        [.assign [.name "x" true] (.num (.int 2)) 5] 2 ]

/-- `def g(i: int, a: int): for i in range(1, 2): s = a` — literal range
endpoints. -/
def forLitProg : PyStmt :=
  .functionDef "g" [("i", "int"), ("a", "int")]
    [ .forStmt (.name "i" true) (.call "range" [.num (.int 1), .num (.int 2)])
        [ .assign [.name "s" true] (.name "a" false) 3 ] [] ]

/-- `def h(i: int, a: int, b: int): for i in range(a, b): x = y` — the loop
body reads `y` without writing it. -/
def forReadProg : PyStmt :=
  .functionDef "h" [("i", "int"), ("a", "int"), ("b", "int")]
    [ .forStmt (.name "i" true) (.call "range" [.name "a" false, .name "b" false])
        [ .assign [.name "x" true] (.name "y" false) 3 ] [] ]

/-- `def f(x: int): x = 1`. -/
def dupFn : PyStmt :=
  .functionDef "f" [("x", "int")] [ .assign [.name "x" true] (.num (.int 1)) 2 ]

/-- The merged fragment of a successful translation (empty on error). -/
def fragOf (r : Except Err (Fragment × PGMState × FnNames × List LambdaEntry)) :
    Fragment :=
  match r with
  | .ok (frag, _, _, _) => frag
  | .error _ => {}

/-- Whether a translation run succeeded. -/
def translationSucceeds
    (r : Except Err (Fragment × PGMState × FnNames × List LambdaEntry)) : Bool :=
  match r with
  | .ok _ => true
  | .error _ => false

/-- Names of all emitted PGM functions of a fragment, in emission order. -/
def fnNamesOfFrag (f : Fragment) : List String := f.functions.map PGMFn.fnname

/-- The `body` record list of the container function named `nm`. -/
def containerBody (f : Fragment) (nm : String) : List BodyRec :=
  (f.functions.filterMap (fun fn =>
    match fn with
    | .containerFn n _ _ _ b => if n = nm then some b else none
    | _ => none)).join

/-! ## C4: for-loop guard behaviour -/

/-- C4, counterexample: the program `forLitProg` iterates
`range(1, 2)` with two *literal* endpoints, and its translation succeeds,
emitting a loop plate — the claimed fatal error on literal endpoints does not
occur (the source's literal test `"type" in rangeCall["inputs"][i]` checks
membership in a list of dicts and never fires). -/
theorem literal_range_accepted_counterexample :
    translationSucceeds (translateRun [forLitProg]) = true ∧
    (fragOf (translateRun [forLitProg])).functions.map PGMFn.ftype =
      ["assign", "loop_plate", "container"] :=
  ⟨rfl, rfl⟩

/-- C4 (amended): lowering a `for` (inside a function, empty else-suite)
fails unless the iterated expression is a `range` call with exactly two
single-descriptor arguments — (i) a call to any other function and (ii) a
plain variable iterable are fatal, and (iii) an index target that lowers to
two or more descriptors is fatal — but the literal-endpoint check never
fires: (iv) two single-descriptor arguments of *any* shape, literals
included, pass the guard, and the loop lowers whenever its body does.  (On
any fatal error the `Except` result carries no fragment, so no partially
lowered loop is produced.) -/
theorem for_loop_guards :
    (∀ (tgt iter : PyExpr) (body : List PyStmt) (s s1 s2 : PGMState)
       (fnNames : FnNames) (lam : List LambdaEntry) (ixName : String) (k : Int)
       (f : String) (ins : List (List SrcDesc)),
      s.fnName ≠ none →
      genPgmExpr tgt s = .ok ([.var ixName k], s1) →
      genPgmExpr iter s1 = .ok ([.call f ins], s2) →
      f ≠ "range" →
      genPgmStmt (.forStmt tgt iter body []) s fnNames lam =
        .error "Can only iterate over a range")
    ∧ (∀ (tgt iter : PyExpr) (body : List PyStmt) (s s1 s2 : PGMState)
       (fnNames : FnNames) (lam : List LambdaEntry) (ixName v : String) (k j : Int),
      s.fnName ≠ none →
      genPgmExpr tgt s = .ok ([.var ixName k], s1) →
      genPgmExpr iter s1 = .ok ([.var v j], s2) →
      genPgmStmt (.forStmt tgt iter body []) s fnNames lam =
        .error "Can only iterate over a range")
    ∧ (∀ (tgt iter : PyExpr) (body : List PyStmt) (s s1 : PGMState)
       (fnNames : FnNames) (lam : List LambdaEntry)
       (da db : SrcDesc) (rest : List SrcDesc),
      s.fnName ≠ none →
      genPgmExpr tgt s = .ok (da :: db :: rest, s1) →
      genPgmStmt (.forStmt tgt iter body []) s fnNames lam =
        .error "Only one index variable is supported")
    ∧ (∀ (tgt iter : PyExpr) (body : List PyStmt) (s s1 s2 s3 : PGMState)
       (fnNames fn1 : FnNames) (lam lam1 : List LambdaEntry)
       (ixName : String) (k : Int) (d1 d2 : SrcDesc) (loop : List Fragment),
      s.fnName ≠ none →
      genPgmExpr tgt s = .ok ([.var ixName k], s1) →
      genPgmExpr iter s1 = .ok ([.call "range" [[d1], [d2]]], s2) →
      genPgmStmtList body
          { lastDefs := ∅, nextDefs := ∅, lastDefDefault := -1,
            fnName := s2.fnName, varTypes := s2.varTypes } fnNames lam =
        .ok (loop, s3, fn1, lam1) →
      ∀ e, genPgmStmt (.forStmt tgt iter body []) s fnNames lam ≠ .error e) := by
  refine ⟨?_, ?_, ?_, ?_⟩
  · intro tgt iter body s s1 s2 fnNames lam ixName k f ins hfn htgt hiter hf
    simp only [genPgmStmt, if_neg hfn, genPgmStmtList, Bind.bind, Except.bind]
    simp only [htgt]
    simp only [hiter]
    split
    · next inputs heq =>
        simp only [List.cons.injEq, SrcDesc.call.injEq, and_true] at heq
        exact absurd heq.1 hf
    · rfl
  · intro tgt iter body s s1 s2 fnNames lam ixName v k j hfn htgt hiter
    simp only [genPgmStmt, if_neg hfn, genPgmStmtList, Bind.bind, Except.bind]
    simp only [htgt]
    simp only [hiter]
  · intro tgt iter body s s1 fnNames lam da db rest hfn htgt
    simp only [genPgmStmt, if_neg hfn, genPgmStmtList, Bind.bind, Except.bind]
    simp only [htgt]
  · intro tgt iter body s s1 s2 s3 fnNames fn1 lam lam1 ixName k d1 d2 loop
      hfn htgt hiter hbody e
    rw [forStmt_success tgt iter body s s1 s2 s3 fnNames fn1 lam lam1
      ixName k d1 d2 loop hfn htgt hiter hbody]
    exact fun hc => Except.noConfusion hc

/-! ## Witness instances for the for-loop theorems -/

/-- Context of a function body `h` with no variables tracked yet. -/
def forWitState : PGMState := ⟨∅, ∅, 0, some "h", ∅⟩

/-- `forWitState` after lowering the index target `i` (store). -/
def forWitS1 : PGMState :=
  ⟨⟨[("i", 1)], by decide⟩, ⟨[("i", 2)], by decide⟩, 0, some "h", ∅⟩

/-- `forWitS1` after lowering `range(a, b)` (reads of `a`, `b`). -/
def forWitS2 : PGMState :=
  ⟨⟨[("i", 1), ("a", 0), ("b", 0)], by decide⟩, ⟨[("i", 2)], by decide⟩, 0,
    some "h", ∅⟩

/-- The fresh loop-body context opened for the witness loop. -/
def forWitLoopState : PGMState := ⟨∅, ∅, -1, some "h", ∅⟩

/-- `for i in range(a, b): pass` (empty body). -/
def forWitStmt : PyStmt :=
  .forStmt (.name "i" true)
    (.call "range" [.name "a" false, .name "b" false]) [] []

/-- The fragment the witness loop lowers to. -/
def forWitFrags : List Fragment :=
  [⟨[.loopPlateFn "h__loop_plate__i_0" "loop_plate" [] "i"
      ⟨[.var "a" 0], [.var "b" 0]⟩ []],
    [.loopCall "h__loop_plate__i_0" []], []⟩]

/-- The name-counter map after the witness loop. -/
def forWitFnNames : FnNames := ⟨[("h__loop_plate__i", 1)], by decide⟩

/-- Witness for C4 at concrete inputs: iterating a call to `foo` (not
`range`) aborts with the fatal error. -/
theorem for_loop_guards_witness :
    ("foo" : String) ≠ "range" ∧
    genPgmStmt (.forStmt (.name "i" true) (.call "foo" []) [] [])
      forWitState ∅ [] = .error "Can only iterate over a range" :=
  ⟨by decide,
   for_loop_guards.1 (.name "i" true) (.call "foo" []) [] forWitState
     forWitS1 forWitS1 ∅ [] "i" 1 "foo" []
     (fun hc => Option.noConfusion hc) rfl rfl (by decide)⟩

/-- Witness for C9 at concrete inputs: after lowering `for i in range(a, b):
pass` the enclosing context tracks `i` in both version maps. -/
theorem for_index_witness :
    forWitState.fnName ≠ none ∧
    (forWitS2.lastDefs.contains "i" = true ∧
     forWitS2.nextDefs.contains "i" = true) :=
  ⟨fun hc => Option.noConfusion hc,
   for_index_version_in_enclosing_scope "i"
     (.call "range" [.name "a" false, .name "b" false]) [] []
     forWitState forWitS2 ∅ forWitFnNames [] [] forWitFrags
     (fun hc => Option.noConfusion hc) rfl⟩

/-! ## C6: loop-plate emission -/

/-- C6 (amended): a successfully lowered `for` emits exactly one `loop_plate`
function for this loop, appended after the body's own functions; its
`index_variable` is the index name, its `index_iteration_range` holds the two
`range`-argument descriptor lists as `start`/`end`, and its `input` list is
the keys of the loop context's `lastDefs` — every variable that acquired a
version entry while lowering the body, reads included — minus the index
variable, each exactly once (the key list is duplicate-free).  The body is
lowered under a fresh context with empty version maps and baseline −1, and
the enclosing context keeps its own `lastDefs`/`nextDefs` unchanged, so
variables local to the loop body gain no version entry in the enclosing
scope. -/
theorem loop_plate_emission (tgt iter : PyExpr) (body : List PyStmt)
    (s s1 s2 s3 : PGMState) (fnNames fn1 : FnNames)
    (lam lam1 : List LambdaEntry) (ixName : String) (k : Int)
    (d1 d2 : SrcDesc) (loop : List Fragment)
    (hfn : s.fnName ≠ none)
    (htgt : genPgmExpr tgt s = .ok ([.var ixName k], s1))
    (hiter : genPgmExpr iter s1 = .ok ([.call "range" [[d1], [d2]]], s2))
    (hbody : genPgmStmtList body
        { lastDefs := ∅, nextDefs := ∅, lastDefDefault := -1,
          fnName := s2.fnName, varTypes := s2.varTypes } fnNames lam =
      .ok (loop, s3, fn1, lam1)) :
    genPgmStmt (.forStmt tgt iter body []) s fnNames lam =
      .ok ([{ functions := (loop.map Fragment.functions).join ++
                [PGMFn.loopPlateFn
                  (getFnName fn1 (pyStr s2.fnName ++ "__loop_plate__" ++ ixName)).1
                  "loop_plate"
                  (s3.lastDefs.keys.filter (fun x => x ≠ ixName))
                  ixName ⟨[d1], [d2]⟩ ((loop.map Fragment.body).join)],
              body := [BodyRec.loopCall
                  (getFnName fn1 (pyStr s2.fnName ++ "__loop_plate__" ++ ixName)).1
                  (s3.lastDefs.keys.filter (fun x => x ≠ ixName))] }],
            { lastDefs := s2.lastDefs, nextDefs := s2.nextDefs,
              lastDefDefault := s2.lastDefDefault, fnName := s2.fnName,
              varTypes := s3.varTypes },
            (getFnName fn1 (pyStr s2.fnName ++ "__loop_plate__" ++ ixName)).2,
            lam1)
    ∧ (s3.lastDefs.keys.filter (fun x => x ≠ ixName)).Nodup :=
  ⟨forStmt_success tgt iter body s s1 s2 s3 fnNames fn1 lam lam1
      ixName k d1 d2 loop hfn htgt hiter hbody,
   (PyDict.nodup_keys _).filter _⟩

/-- C6, counterexample: in `forReadProg` the loop body `x = y` only *reads*
`y`, yet the emitted loop plate's `input` list is `["y", "x"]`: the list
collects every variable that acquired a version entry in the loop context
(reads included), not only the written variables, so it differs from the
claimed `["x"]`. -/
theorem loop_input_includes_reads_counterexample :
    (fragOf (translateRun [forReadProg])).functions.filterMap (fun fn =>
      match fn with
      | .loopPlateFn n _ input ix _ _ => some (n, input, ix)
      | _ => none) = [("h__loop_plate__i_0", ["y", "x"], "i")] ∧
    (["y", "x"] : List String) ≠ ["x"] :=
  ⟨rfl, by decide⟩

/-- Witness for C6 at concrete inputs: the empty-body loop
`for i in range(a, b): pass`. -/
theorem loop_plate_emission_witness :
    genPgmStmt forWitStmt forWitState ∅ [] =
      .ok (forWitFrags, forWitS2, forWitFnNames, []) ∧
    ((∅ : VMap).keys.filter (fun x => x ≠ "i")).Nodup :=
  ⟨(loop_plate_emission (.name "i" true)
      (.call "range" [.name "a" false, .name "b" false]) []
      forWitState forWitS1 forWitS2 forWitLoopState ∅ ∅ [] []
      "i" 1 (.var "a" 0) (.var "b" 0) []
      (fun hc => Option.noConfusion hc) rfl rfl rfl).1,
   (loop_plate_emission (.name "i" true)
      (.call "range" [.name "a" false, .name "b" false]) []
      forWitState forWitS1 forWitS2 forWitLoopState ∅ ∅ [] []
      "i" 1 (.var "a" 0) (.var "b" 0) []
      (fun hc => Option.noConfusion hc) rfl rfl rfl).2⟩

/-! ## C5: constant folding -/

/-- C5 (amended): constant folding is exactly the `ast.BinOp` two-literal
case — a single folded `Literal` carrying the operator applied to the two
payloads, never a call descriptor — while a `BinOp` with a non-literal
operand returns the concatenation of its operands' descriptor lists, and
`ast.Compare` *never* folds: it concatenates its operands' descriptor lists
even when both are numeric literals. -/
theorem constant_folding_binop_only :
    (∀ (op : BinOpKind) (a b v : PyNum) (s : PGMState),
      applyBinop op a b = some v →
      genPgmExpr (.binOp (.num a) op (.num b)) s =
        .ok ([.literal (getDType v) v], s))
    ∧ (∀ (l r : PyExpr) (op : BinOpKind) (s s1 s2 : PGMState)
        (ld rd : List SrcDesc),
        numOperands l r = none →
        genPgmExpr l s = .ok (ld, s1) →
        genPgmExpr r s1 = .ok (rd, s2) →
        genPgmExpr (.binOp l op r) s = .ok (ld ++ rd, s2))
    ∧ (∀ (l : PyExpr) (ops : List CmpOpKind) (comps : List PyExpr)
        (s s1 s2 : PGMState) (ld cd : List SrcDesc),
        genPgmExpr l s = .ok (ld, s1) →
        genPgmExprFlat comps s1 = .ok (cd, s2) →
        genPgmExpr (.compare l ops comps) s = .ok (ld ++ cd, s2)) := by
  refine ⟨?_, ?_, ?_⟩
  · intro op a b v s h
    simp [genPgmExpr, numOperands, h]
  · intro l r op s s1 s2 ld rd hno hl hr
    simp only [genPgmExpr, hno, Bind.bind, Except.bind]
    simp only [hl]
    simp only [hr]
  · intro l ops comps s s1 s2 ld cd hl hc
    simp only [genPgmExpr, Bind.bind, Except.bind]
    simp only [hl]
    simp only [hc]

/-- C5, counterexample: lowering the comparison `1 <= 2` — a binary
comparison whose two operands are both numeric literals — yields *two*
`Literal` descriptors (the concatenation of the operands), not one folded
`Literal`. -/
theorem compare_literals_not_folded_counterexample :
    genPgmExpr (.compare (.num (.int 1)) [.cmpLtE] [.num (.int 2)]) initState =
      .ok ([.literal "integer" (.int 1), .literal "integer" (.int 2)],
        initState)
    ∧ ([SrcDesc.literal "integer" (.int 1),
        .literal "integer" (.int 2)]).length ≠ 1 :=
  ⟨rfl, by decide⟩

/-- Witness for C5 at concrete inputs: `1 + 2` folds to the literal `3`. -/
theorem constant_folding_witness :
    applyBinop .add (.int 1) (.int 2) = some (.int 3) ∧
    genPgmExpr (.binOp (.num (.int 1)) .add (.num (.int 2))) initState =
      .ok ([.literal "integer" (.int 3)], initState) :=
  ⟨rfl, constant_folding_binop_only.1 .add (.int 1) (.int 2) (.int 3)
    initState rfl⟩

/-! ## C7: name uniqueness -/

/-- C7, counterexample: translating a module with two same-named function
definitions (`dupFn` twice) emits two `container` functions both named `"f"`:
the emitted name list has a duplicate.  Container functions reuse the source
function name verbatim instead of a generated basename-plus-counter name. -/
theorem duplicate_fn_names_counterexample :
    fnNamesOfFrag (fragOf (translateRun [dupFn, dupFn])) =
      ["f__assign__x_0", "f", "f__assign__x_1", "f"] ∧
    ¬ (["f__assign__x_0", "f", "f__assign__x_1", "f"] : List String).Nodup :=
  ⟨rfl, by decide⟩

/-! ## C2/C8: decision synthesis at conditional exit -/

theorem mem_dedupFirst (l : List String) (x : String) :
    x ∈ dedupFirst l ↔ x ∈ l := by
  induction l with
  | nil => simp [dedupFirst]
  | cons a l ih =>
      simp only [dedupFirst, List.mem_cons, List.mem_filter]
      constructor
      · rintro (rfl | ⟨hx, -⟩)
        · exact .inl rfl
        · exact .inr (ih.mp hx)
      · rintro (rfl | hx)
        · exact .inl rfl
        · by_cases hxa : x = a
          · exact .inl hxa
          · exact .inr ⟨ih.mpr hx, by simpa using hxa⟩

theorem nodup_dedupFirst (l : List String) : (dedupFirst l).Nodup := by
  induction l with
  | nil => simp [dedupFirst]
  | cons a l ih =>
      simp only [dedupFirst, List.nodup_cons]
      refine ⟨fun hmem => ?_, ih.filter _⟩
      have h2 := (List.mem_filter.mp hmem).2
      simp at h2

theorem nodup_updatedVars (st ifD elD : VMap) :
    (updatedVars st ifD elD).Nodup :=
  (nodup_dedupFirst _).filter _

theorem mem_updatedVars (st ifD elD : VMap) (v : String) :
    v ∈ updatedVars st ifD elD ↔
      ((v ∈ st.keys ∨ v ∈ ifD.keys ∨ v ∈ elD.keys) ∧
       (st.contains v = false ∨ ifD.find? v ≠ st.find? v ∨
        elD.find? v ≠ st.find? v)) := by
  simp only [updatedVars, List.mem_filter, mem_dedupFirst, List.mem_append,
    Bool.or_eq_true, Bool.not_eq_true', bne_iff_ne, ne_eq]
  tauto

/-- The merge-input list as the amended claim states it, read directly off
the two branch maps: the condition output first, then the pair
(else-branch version, then-branch version) when the variable is present in
both branch contexts — note the else version comes first — or the single
present version when only one branch context knows the variable.  (Every
variable of the pre-branch baseline is present in both branch contexts,
which start as copies of it.) -/
def decisionInputsSpec (cond : VarRef) (ifD elD : VMap) (v : String) :
    List BodyInput :=
  match ifD.find? v, elD.find? v with
  | some i, some e =>
      [.varIndex cond.varname cond.index, .varIndex v e, .varIndex v i]
  | some i, none => [.varIndex cond.varname cond.index, .varIndex v i]
  | none, some e => [.varIndex cond.varname cond.index, .varIndex v e]
  | none, none => [.varIndex cond.varname cond.index]

theorem decisionsGo_frame (cond : VarRef) (st ifD elD : VMap) (stem : String) :
    ∀ (vs : List String) (s : PGMState) (fn : FnNames) (w : String), w ∉ vs →
    (decisionsGo cond st ifD elD stem vs s fn).2.2.1.lastDefs.find? w =
       s.lastDefs.find? w ∧
    (decisionsGo cond st ifD elD stem vs s fn).2.2.1.nextDefs.find? w =
       s.nextDefs.find? w := by
  intro vs
  induction vs with
  | nil => intro s fn w hw; exact ⟨rfl, rfl⟩
  | cons v rest ih =>
      intro s fn w hw
      have hwv : w ≠ v := fun h => hw (h ▸ List.mem_cons_self v rest)
      have hwr : w ∉ rest := fun h => hw (List.mem_cons_of_mem _ h)
      simp only [decisionsGo]
      refine ⟨?_, ?_⟩
      · rw [(ih _ _ w hwr).1]
        simp [getNextDef, PyDict.find?_insert_ne _ _ _ _ hwv]
      · rw [(ih _ _ w hwr).2]
        simp [getNextDef, PyDict.find?_insert_ne _ _ _ _ hwv]

theorem decisionInputs_eq_spec (cond : VarRef) (st ifD elD : VMap) (v : String)
    (hif : st.contains v = true → ifD.contains v = true)
    (hel : st.contains v = true → elD.contains v = true)
    (hpres : ifD.contains v = true ∨ elD.contains v = true) :
    decisionInputs cond v
        ([st.find? v, ifD.find? v, elD.find? v].filterMap id) =
      decisionInputsSpec cond ifD elD v := by
  cases hs : st.find? v with
  | some s0 =>
      have hcs : st.contains v = true := by simp [PyDict.contains, hs]
      obtain ⟨i, hi⟩ := Option.isSome_iff_exists.mp (hif hcs)
      obtain ⟨e, he⟩ := Option.isSome_iff_exists.mp (hel hcs)
      simp [decisionInputs, decisionInputsSpec, hs, hi, he, List.getLastD]
  | none =>
      cases hi : ifD.find? v with
      | some i =>
          cases he : elD.find? v with
          | some e =>
              simp [decisionInputs, decisionInputsSpec, hs, hi, he,
                List.getLastD]
          | none =>
              simp [decisionInputs, decisionInputsSpec, hs, hi, he]
      | none =>
          cases he : elD.find? v with
          | some e =>
              simp [decisionInputs, decisionInputsSpec, hs, hi, he]
          | none =>
              rcases hpres with hp | hp <;>
                simp [PyDict.contains, hi, he] at hp

theorem decisionsGo_spec (cond : VarRef) (st ifD elD : VMap) (stem : String) :
    ∀ (vs : List String) (s : PGMState) (fn : FnNames),
    vs.Nodup →
    (∀ v ∈ vs, st.contains v = true → ifD.contains v = true) →
    (∀ v ∈ vs, st.contains v = true → elD.contains v = true) →
    (∀ v ∈ vs, ifD.contains v = true ∨ elD.contains v = true) →
    (decisionsGo cond st ifD elD stem vs s fn).1.length = vs.length ∧
    (decisionsGo cond st ifD elD stem vs s fn).2.1.length = vs.length ∧
    (∀ (i : Nat) (v : String), vs.get? i = some v →
      ∃ (nm : String) (idx : Int),
        (decisionsGo cond st ifD elD stem vs s fn).2.1.get? i =
          some (.entry nm ⟨v, idx⟩ (decisionInputsSpec cond ifD elD v)) ∧
        (decisionsGo cond st ifD elD stem vs s fn).1.get? i =
          some (.assignFn nm "assign" v
            (decisionSources (decisionInputsSpec cond ifD elD v)) none) ∧
        (decisionsGo cond st ifD elD stem vs s fn).2.2.1.lastDefs.find? v =
          some idx ∧
        (decisionsGo cond st ifD elD stem vs s fn).2.2.1.nextDefs.find? v =
          some (idx + 1)) := by
  intro vs
  induction vs with
  | nil =>
      intro s fn hnodup hif hel hpres
      refine ⟨rfl, rfl, ?_⟩
      intro i v hv
      simp [decisionsGo] at hv
  | cons v rest ih =>
      intro s fn hnodup hif hel hpres
      obtain ⟨hvrest, hrestnodup⟩ := List.nodup_cons.mp hnodup
      have hinputs := decisionInputs_eq_spec cond st ifD elD v
        (hif v (List.mem_cons_self _ _)) (hel v (List.mem_cons_self _ _))
        (hpres v (List.mem_cons_self _ _))
      have ihr := ih
        {s with
          lastDefs :=
            (getNextDef v s.lastDefs s.nextDefs s.lastDefDefault).2.1,
          nextDefs :=
            (getNextDef v s.lastDefs s.nextDefs s.lastDefDefault).2.2}
        (getFnName fn (stem ++ "__decision__" ++ v)).2
        hrestnodup
        (fun w hw => hif w (List.mem_cons_of_mem _ hw))
        (fun w hw => hel w (List.mem_cons_of_mem _ hw))
        (fun w hw => hpres w (List.mem_cons_of_mem _ hw))
      simp only [decisionsGo]
      refine ⟨by simp [ihr.1], by simp [ihr.2.1], ?_⟩
      intro i w hw
      cases i with
      | zero =>
          simp only [List.get?] at hw
          injection hw with hw
          subst hw
          refine ⟨(getFnName fn (stem ++ "__decision__" ++ v)).1,
            (getNextDef v s.lastDefs s.nextDefs s.lastDefDefault).1,
            ?_, ?_, ?_, ?_⟩
          · simp [hinputs]
          · simp [hinputs]
          · have hfr := (decisionsGo_frame cond st ifD elD stem rest
              {s with
                lastDefs :=
                  (getNextDef v s.lastDefs s.nextDefs s.lastDefDefault).2.1,
                nextDefs :=
                  (getNextDef v s.lastDefs s.nextDefs s.lastDefDefault).2.2}
              (getFnName fn (stem ++ "__decision__" ++ v)).2 v hvrest).1
            rw [hfr]
            simp [getNextDef, PyDict.find?_insert_self]
          · have hfr := (decisionsGo_frame cond st ifD elD stem rest
              {s with
                lastDefs :=
                  (getNextDef v s.lastDefs s.nextDefs s.lastDefDefault).2.1,
                nextDefs :=
                  (getNextDef v s.lastDefs s.nextDefs s.lastDefDefault).2.2}
              (getFnName fn (stem ++ "__decision__" ++ v)).2 v hvrest).2
            rw [hfr]
            simp [getNextDef, PyDict.find?_insert_self]
      | succ i =>
          simp only [List.get?] at hw
          obtain ⟨nm, idx, h1, h2, h3, h4⟩ := ihr.2.2 i w hw
          exact ⟨nm, idx, h1, h2, h3, h4⟩

/-- C2 (amended): at the exit of an if/else, exactly one decision function is
synthesized per variable whose version differs among the pre-branch baseline,
the then-context and the else-context (the updated-variable list is
duplicate-free and characterized by the membership equivalence below).  Each
decision's input list carries the boolean condition output first, followed by
the pair (else-branch version, then-branch version) — the *else* version
precedes the *then* version — when both branch contexts know the variable, or
the single present version otherwise; its output is a fresh version of the
variable obtained via `getNextDef` in the enclosing context, which afterwards
records that version in `lastDefs` and its successor in `nextDefs`. -/
theorem decision_merge_synthesis (cond : VarRef) (st ifD elD : VMap)
    (stem : String) (s : PGMState) (fn : FnNames)
    (hif : st.keys.all (fun v => ifD.contains v) = true)
    (hel : st.keys.all (fun v => elD.contains v) = true) :
    (updatedVars st ifD elD).Nodup ∧
    (∀ v, v ∈ updatedVars st ifD elD ↔
      ((v ∈ st.keys ∨ v ∈ ifD.keys ∨ v ∈ elD.keys) ∧
       (st.contains v = false ∨ ifD.find? v ≠ st.find? v ∨
        elD.find? v ≠ st.find? v))) ∧
    (ifDecisions cond st ifD elD stem s fn).1.length =
      (updatedVars st ifD elD).length ∧
    (ifDecisions cond st ifD elD stem s fn).2.1.length =
      (updatedVars st ifD elD).length ∧
    (∀ (i : Nat) (v : String), (updatedVars st ifD elD).get? i = some v →
      ∃ (nm : String) (idx : Int),
        (ifDecisions cond st ifD elD stem s fn).2.1.get? i =
          some (.entry nm ⟨v, idx⟩ (decisionInputsSpec cond ifD elD v)) ∧
        (ifDecisions cond st ifD elD stem s fn).1.get? i =
          some (.assignFn nm "assign" v
            (decisionSources (decisionInputsSpec cond ifD elD v)) none) ∧
        (ifDecisions cond st ifD elD stem s fn).2.2.1.lastDefs.find? v =
          some idx ∧
        (ifDecisions cond st ifD elD stem s fn).2.2.1.nextDefs.find? v =
          some (idx + 1)) := by
  have hif' : ∀ v ∈ updatedVars st ifD elD,
      st.contains v = true → ifD.contains v = true := fun v hv hc =>
    List.all_eq_true.mp hif v ((PyDict.contains_iff_mem_keys _ _).mp hc)
  have hel' : ∀ v ∈ updatedVars st ifD elD,
      st.contains v = true → elD.contains v = true := fun v hv hc =>
    List.all_eq_true.mp hel v ((PyDict.contains_iff_mem_keys _ _).mp hc)
  have hpres : ∀ v ∈ updatedVars st ifD elD,
      ifD.contains v = true ∨ elD.contains v = true := by
    intro v hv
    obtain ⟨hmem, -⟩ := (mem_updatedVars st ifD elD v).mp hv
    rcases hmem with h | h | h
    · exact .inl (hif' v hv ((PyDict.contains_iff_mem_keys _ _).mpr h))
    · exact .inl ((PyDict.contains_iff_mem_keys _ _).mpr h)
    · exact .inr ((PyDict.contains_iff_mem_keys _ _).mpr h)
  have hspec := decisionsGo_spec cond st ifD elD stem
    (updatedVars st ifD elD) s fn (nodup_updatedVars st ifD elD)
    hif' hel' hpres
  exact ⟨nodup_updatedVars st ifD elD, mem_updatedVars st ifD elD,
    hspec.1, hspec.2.1, hspec.2.2⟩

set_option maxHeartbeats 2000000 in
/-- C2, counterexample: in `def f(c: int, x: int): if c <= x: x = 1 else:
x = 2`, both branches update `x` (then-version 1, else-version 2 — the else
branch sees the then branch's `nextDefs` bump), and the synthesized decision
record's inputs are `[condition, x@2, x@1]` — the else version precedes the
then version — not `[condition, x@1, x@2]` as the claimed
`(then version, else version)` order requires. -/
theorem decision_input_order_counterexample :
    containerBody (fragOf (translateRun [ifExProg])) "f" =
      [ .entry "f__condition__IF_1_0" ⟨"IF_1", 0⟩
          [.varIndex "c" 0, .varIndex "x" 0],
        .entry "f__assign__x_0" ⟨"x", 1⟩ [],
        .entry "f__assign__x_1" ⟨"x", 2⟩ [],
        .entry "f__decision__x_0" ⟨"x", 3⟩
          [.varIndex "IF_1" 0, .varIndex "x" 2, .varIndex "x" 1] ] ∧
    ([BodyInput.varIndex "IF_1" 0, .varIndex "x" 2, .varIndex "x" 1] ≠
     [BodyInput.varIndex "IF_1" 0, .varIndex "x" 1, .varIndex "x" 2]) :=
  ⟨rfl, by decide⟩

/-- Concrete maps for the decision-synthesis witnesses: baseline `x@0`,
then-context `x@1`, else-context `x@2`, enclosing next-version 3. -/
def decWitStart : VMap := (∅ : VMap).insert "x" 0

def decWitIf : VMap := (∅ : VMap).insert "x" 1

def decWitElse : VMap := (∅ : VMap).insert "x" 2

def decWitState : PGMState :=
  ⟨(∅ : VMap).insert "x" 0, (∅ : VMap).insert "x" 3, 0, some "f", ∅⟩

set_option maxHeartbeats 2000000 in
/-- Witness for C2 at concrete inputs. -/
theorem decision_merge_synthesis_witness :
    (decWitStart.keys.all (fun v => decWitIf.contains v) = true) ∧
    (decWitStart.keys.all (fun v => decWitElse.contains v) = true) ∧
    (ifDecisions ⟨"IF_1", 0⟩ decWitStart decWitIf decWitElse "f"
        decWitState ∅).2.1.length =
      (updatedVars decWitStart decWitIf decWitElse).length :=
  ⟨rfl, rfl,
   (decision_merge_synthesis ⟨"IF_1", 0⟩ decWitStart decWitIf decWitElse "f"
      decWitState ∅ rfl rfl).2.2.2.1⟩

/-- C8 (amended): every merge function synthesized by the decision loop is
emitted with `"type": "assign"` — not `"decision"` — and only its generated
name carries the decision role, as `{fnName}__decision__{var}_{counter}`. -/
theorem decision_functions_are_type_assign (cond : VarRef) (st ifD elD : VMap)
    (stem : String) :
    ∀ (vs : List String) (s : PGMState) (fn : FnNames),
    ∀ f ∈ (decisionsGo cond st ifD elD stem vs s fn).1,
      f.ftype = "assign" ∧
      ∃ v k, v ∈ vs ∧
        f.fnname = (stem ++ "__decision__" ++ v) ++ "_" ++ Nat.repr k := by
  intro vs
  induction vs with
  | nil => intro s fn f hf; simp [decisionsGo] at hf
  | cons v rest ih =>
      intro s fn f hf
      simp only [decisionsGo, List.mem_cons] at hf
      rcases hf with rfl | hf
      · exact ⟨rfl, v, (fn.find? (stem ++ "__decision__" ++ v)).getD 0,
          List.mem_cons_self _ _, rfl⟩
      · obtain ⟨h1, w, k, hw, h2⟩ := ih _ _ f hf
        exact ⟨h1, w, k, List.mem_cons_of_mem _ hw, h2⟩

set_option maxHeartbeats 2000000 in
/-- C8, counterexample: the merge function synthesized for `x` at the exit of
the conditional in `ifExProg` carries the dict field `"type": "assign"`, not
`"decision"` — no emission site in the source ever writes
`"type": "decision"`. -/
theorem decision_type_counterexample :
    ((fragOf (translateRun [ifExProg])).functions.filter
        (fun f => f.fnname == "f__decision__x_0")).map PGMFn.ftype =
      ["assign"] ∧
    ("assign" : String) ≠ "decision" :=
  ⟨rfl, by decide⟩

/-- Witness for C8 at concrete inputs: the decision function synthesized for
`x` from the concrete witness maps has type field `"assign"`. -/
theorem decision_type_witness :
    (PGMFn.assignFn "f__decision__x_0" "assign" "x"
      [⟨"IF_1_0", "variable"⟩, ⟨"x_2", "variable"⟩, ⟨"x_1", "variable"⟩]
      none).ftype = "assign" :=
  (decision_functions_are_type_assign ⟨"IF_1", 0⟩ decWitStart decWitIf
    decWitElse "f" ["x"] decWitState ∅ _
    (List.mem_singleton_self _)).1

/-! ## C10: condition-variable naming -/

theorem reprInt_inj (m n : Int) (h : Int.repr m = Int.repr n) : m = n := by
  cases m with
  | ofNat a =>
      cases n with
      | ofNat b => exact congrArg Int.ofNat (reprNat_inj a b h)
      | negSucc b =>
          exfalso
          have hd := congrArg String.data h
          simp only [Int.repr, String.data_append] at hd
          have hm : '-' ∈ (Nat.repr a).data := by
            rw [hd]; exact List.mem_cons_self _ _
          exact (reprNat_data_chars a '-' hm).2 rfl
  | negSucc a =>
      cases n with
      | ofNat b =>
          exfalso
          have hd := congrArg String.data h
          simp only [Int.repr, String.data_append] at hd
          have hm : '-' ∈ (Nat.repr b).data := by
            rw [← hd]; exact List.mem_cons_self _ _
          exact (reprNat_data_chars b '-' hm).2 rfl
      | negSucc b =>
          have hd := congrArg String.data h
          simp only [Int.repr, String.data_append, List.cons.injEq,
            List.singleton_append, true_and] at hd
          have h2 : Nat.repr (a + 1) = Nat.repr (b + 1) := String.ext hd
          have h3 := reprNat_inj _ _ h2
          exact congrArg Int.negSucc (by omega)

theorem string_append_left_cancel (a b c : String) (h : a ++ b = a ++ c) :
    b = c := by
  apply String.ext
  have hd := congrArg String.data h
  simp only [String.data_append] at hd
  exact List.append_cancel_left hd

theorem cond_names_succ_ne (n : Int) :
    ("IF_" ++ Int.repr (n + 1)) ≠ ("IF_" ++ Int.repr n) := by
  intro h
  have h2 := reprInt_inj _ _ (string_append_left_cancel _ _ _ h)
  omega

/-- Field equations of a successful condition phase. -/
theorem ifCondPhase_fields (condSrcs : List SrcDesc) (lineno : Nat)
    (s s1 : PGMState) (fnNames fn1 : FnNames) (lam lam1 : List LambdaEntry)
    (info : CondInfo)
    (h : ifCondPhase condSrcs lineno s fnNames lam = .ok (info, s1, fn1, lam1)) :
    info.condName =
      "IF_" ++ Int.repr ((s.nextDefs.find? "#cond").getD (s.lastDefDefault + 1)) ∧
    info.condOutput = ⟨info.condName, 0⟩ ∧
    s1.nextDefs.find? "#cond" =
      some ((s.nextDefs.find? "#cond").getD (s.lastDefDefault + 1) + 1) ∧
    s1.varTypes.find? info.condName = some "boolean" ∧
    s1.lastDefs.find? info.condName = some 0 ∧
    s1.lastDefDefault = s.lastDefDefault := by
  simp only [ifCondPhase, getFnName, Bind.bind, Except.bind] at h
  split at h
  · split at h
    · exact absurd h (by simp)
    · simp only [Except.ok.injEq, Prod.mk.injEq] at h
      obtain ⟨hinfo, hs1, -, -⟩ := h
      subst hinfo
      subst hs1
      refine ⟨rfl, rfl, ?_, ?_, ?_, rfl⟩
      · exact PyDict.find?_insert_self _ _ _
      · exact PyDict.find?_insert_self _ _ _
      · exact PyDict.find?_insert_self _ _ _
  · simp only [Except.ok.injEq, Prod.mk.injEq] at h
    obtain ⟨hinfo, hs1, -, -⟩ := h
    subst hinfo
    subst hs1
    refine ⟨rfl, rfl, ?_, ?_, ?_, rfl⟩
    · exact PyDict.find?_insert_self _ _ _
    · exact PyDict.find?_insert_self _ _ _
    · exact PyDict.find?_insert_self _ _ _

/-- C10: the synthesized condition variable is `IF_{n}` with `n` drawn from
the per-context counter under the reserved key `"#cond"` in `nextDefs`
(defaulting to `lastDefDefault + 1`) and bumped by one; the variable is
registered with domain `boolean` (and current version 0), and its output
reference carries version index 0.  A subsequent condition phase seeing the
bumped counter (and the same baseline) produces a distinct condition
variable name. -/
theorem cond_variable_naming (condSrcs : List SrcDesc) (lineno : Nat)
    (s s1 : PGMState) (fnNames fn1 : FnNames) (lam lam1 : List LambdaEntry)
    (info : CondInfo)
    (h : ifCondPhase condSrcs lineno s fnNames lam = .ok (info, s1, fn1, lam1)) :
    (info.condName =
      "IF_" ++ Int.repr ((s.nextDefs.find? "#cond").getD (s.lastDefDefault + 1)) ∧
    info.condOutput = ⟨info.condName, 0⟩ ∧
    s1.nextDefs.find? "#cond" =
      some ((s.nextDefs.find? "#cond").getD (s.lastDefDefault + 1) + 1) ∧
    s1.varTypes.find? info.condName = some "boolean" ∧
    s1.lastDefs.find? info.condName = some 0) ∧
    (∀ (condSrcs2 : List SrcDesc) (lineno2 : Nat) (s2 s3 : PGMState)
       (fn2 fn3 : FnNames) (lam2 lam3 : List LambdaEntry) (info2 : CondInfo),
      s2.nextDefs.find? "#cond" = s1.nextDefs.find? "#cond" →
      s2.lastDefDefault = s.lastDefDefault →
      ifCondPhase condSrcs2 lineno2 s2 fn2 lam2 = .ok (info2, s3, fn3, lam3) →
      info2.condName ≠ info.condName) := by
  obtain ⟨hn, ho, hc, hv, hl, hd⟩ := ifCondPhase_fields _ _ _ _ _ _ _ _ _ h
  refine ⟨⟨hn, ho, hc, hv, hl⟩, ?_⟩
  intro condSrcs2 lineno2 s2 s3 fn2 fn3 lam2 lam3 info2 hcond hdef h2
  obtain ⟨hn2, -, -, -, -, -⟩ := ifCondPhase_fields _ _ _ _ _ _ _ _ _ h2
  rw [hn2, hn, hcond, hc, hdef]
  simp only [Option.getD_some]
  exact cond_names_succ_ne _

/-! ## C3: branch-context sharing in the `ast.If` handler -/

/-- C3 (amended): when lowering `if`/`else`, only `lastDefs` is copied per
branch.  The then branch is lowered from the post-condition context itself;
the else branch is lowered from the *then branch's final context* with only
`lastDefs` reset to the post-condition copy (its `nextDefs` and `varTypes`
carry the then branch's writes); and the decision phase runs on the else
branch's final context with `lastDefs` reset likewise.  Hence branch writes
to `lastDefs` never leak to the sibling or the parent except through
decision outputs, while `nextDefs`/`varTypes` writes flow through both
branches into the parent. -/
theorem if_branch_context_flow (test : PyExpr) (body orelse : List PyStmt)
    (lineno : Nat) (s s0 s1 s2 s3 : PGMState)
    (fnNames fn1 fn2 fn3 : FnNames)
    (lam lam1 lam2 lam3 : List LambdaEntry)
    (condSrcs : List SrcDesc) (info : CondInfo)
    (ifPgm elsePgm : List Fragment)
    (hfn : s.fnName ≠ none)
    (htest : genPgmExpr test s = .ok (condSrcs, s0))
    (hcond : ifCondPhase condSrcs lineno s0 fnNames lam =
      .ok (info, s1, fn1, lam1))
    (hthen : genPgmStmtList body s1 fn1 lam1 = .ok (ifPgm, s2, fn2, lam2))
    (helse : genPgmStmtList orelse {s2 with lastDefs := s1.lastDefs} fn2 lam2 =
      .ok (elsePgm, s3, fn3, lam3)) :
    genPgmStmt (.ifStmt test body orelse lineno) s fnNames lam =
      .ok ([{ functions := info.condFn ::
                ((ifPgm.map Fragment.functions).join ++
                 (elsePgm.map Fragment.functions).join ++
                 (ifDecisions info.condOutput s1.lastDefs s2.lastDefs
                    s3.lastDefs (pyStr s1.fnName)
                    {s3 with lastDefs := s1.lastDefs} fn3).1),
              body := info.condBody ::
                ((ifPgm.map Fragment.body).join ++
                 (elsePgm.map Fragment.body).join ++
                 (ifDecisions info.condOutput s1.lastDefs s2.lastDefs
                    s3.lastDefs (pyStr s1.fnName)
                    {s3 with lastDefs := s1.lastDefs} fn3).2.1) }],
            (ifDecisions info.condOutput s1.lastDefs s2.lastDefs s3.lastDefs
               (pyStr s1.fnName) {s3 with lastDefs := s1.lastDefs} fn3).2.2.1,
            (ifDecisions info.condOutput s1.lastDefs s2.lastDefs s3.lastDefs
               (pyStr s1.fnName) {s3 with lastDefs := s1.lastDefs} fn3).2.2.2,
            lam3) := by
  simp only [genPgmStmt, if_neg hfn, Bind.bind, Except.bind]
  simp only [htest]
  simp only [hcond]
  simp only [hthen]
  simp only [helse]

/-- The context entering the branches of `ifExProg`'s conditional, after the
condition phase (transcribed from the run). -/
def ifExPreState : PGMState :=
  ⟨⟨[("c", 0), ("x", 0), ("IF_1", 0)], by decide⟩,
   ⟨[("#cond", 2)], by decide⟩, 0, some "f",
   ⟨[("c", "integer"), ("x", "integer"), ("IF_1", "boolean")], by decide⟩⟩

/-- The name-counter map after `ifExProg`'s condition phase. -/
def ifExFnNames1 : FnNames :=
  ⟨[("f__condition__IF_1", 1), ("f__lambda__IF_1", 1)], by decide⟩

set_option maxHeartbeats 2000000 in
/-- C3, counterexample: in `ifExProg` (`if c <= x: x = 1 else: x = 2`) the
then branch writes `x` at version 1.  Were the else branch lowered under an
independent copy of the whole pre-branch context, its write to `x` would also
receive version 1 — as lowering `x = 2` directly from the pre-branch context
shows — but in the actual run the else write receives version 2: the then
branch's update of the shared (aliased) `nextDefs` dict is visible to the
sibling branch, so the branch contexts are not value copies. -/
theorem branch_alias_counterexample :
    (match genPgmStmtList [.assign [.name "x" true] (.num (.int 2)) 5]
        ifExPreState ifExFnNames1 [] with
     | .ok (frags, _, _, _) => (frags.map Fragment.body).join
     | .error _ => []) = [.entry "f__assign__x_0" ⟨"x", 1⟩ []] ∧
    (containerBody (fragOf (translateRun [ifExProg])) "f").get? 2 =
      some (.entry "f__assign__x_1" ⟨"x", 2⟩ []) ∧
    (2 : Int) ≠ 1 :=
  ⟨rfl, rfl, by decide⟩

/-! ## Witness instances for the conditional theorems -/

/-- The condition info produced for `if 1: pass` inside `f`. -/
def ifWitInfo : CondInfo :=
  ⟨"IF_1", ⟨"IF_1", 0⟩,
   .assignFn "f__condition__IF_1_0" "assign" "IF_1" []
     (some (.lambdas [("f__lambda__IF_1_0", 7)])),
   .entry "f__condition__IF_1_0" ⟨"IF_1", 0⟩ []⟩

/-- The context after that condition phase. -/
def ifWitS1 : PGMState :=
  ⟨⟨[("IF_1", 0)], by decide⟩, ⟨[("#cond", 2)], by decide⟩, 0, some "f",
   ⟨[("IF_1", "boolean")], by decide⟩⟩

/-- The name counters after that condition phase. -/
def ifWitFn : FnNames :=
  ⟨[("f__condition__IF_1", 1), ("f__lambda__IF_1", 1)], by decide⟩

/-- The lambda sink after that condition phase. -/
def ifWitLam : List LambdaEntry := [⟨"f__lambda__IF_1_0", none, []⟩]

/-- Witness for C3 at concrete inputs: `if 1: pass` (empty branches). -/
theorem if_branch_context_flow_witness :
    genPgmStmt (.ifStmt (.num (.int 1)) [] [] 7)
        ⟨∅, ∅, 0, some "f", ∅⟩ ∅ [] =
      .ok ([⟨[ifWitInfo.condFn], [ifWitInfo.condBody], []⟩],
           ifWitS1, ifWitFn, ifWitLam) :=
  if_branch_context_flow (.num (.int 1)) [] [] 7
    ⟨∅, ∅, 0, some "f", ∅⟩ ⟨∅, ∅, 0, some "f", ∅⟩ ifWitS1 ifWitS1 ifWitS1
    ∅ ifWitFn ifWitFn ifWitFn [] ifWitLam ifWitLam ifWitLam
    [.literal "integer" (.int 1)] ifWitInfo [] []
    (fun hc => Option.noConfusion hc) rfl rfl rfl rfl

/-- Witness for C10 at concrete inputs: the condition phase of `if 1: pass`
inside `f` produces `IF_1` with domain `boolean`. -/
theorem cond_variable_naming_witness :
    ifWitInfo.condName = "IF_" ++ Int.repr 1 ∧
    ifWitS1.varTypes.find? ifWitInfo.condName = some "boolean" := by
  have h := (cond_variable_naming [.literal "integer" (.int 1)] 7
    ⟨∅, ∅, 0, some "f", ∅⟩ ifWitS1 ∅ ifWitFn [] ifWitLam ifWitInfo rfl).1
  exact ⟨h.1, h.2.2.2.1⟩
